import Mathlib

/-!
Verification of the Atomica compartmental integration engine (src/atomica/model.py
and src/atomica/parser_function.py) against its natural-language specification.

The relevant Python functions are shallowly embedded as executable Lean
definitions over exact rational arithmetic. Machine floats are modelled by ℚ
(every float is a rational; claims under audit concern ordering, clamping and
exact algebraic identities, not rounding), with IEEE infinity modelled
explicitly where the source manipulates it (characteristic denominators).
-/

namespace Atomica

/-- Translation of model.py `model_settings` dictionary: the global tolerance, 1e-6. -/
def model_settings_tolerance : ℚ := 1 / 1000000

/-! ## Compartment.update and Compartment.resolve_outflows (model.py lines 278-329)

A plain compartment stores a value per tick. `resolve_outflows` converts the
per-link cached fractions into numbers of people, rescaling by `1/outflow`
whenever the cached fractions sum to more than 1. `update` steps the value
forward by the flows of the previous tick and clamps at zero.
-/

/-- Translation of `Compartment.resolve_outflows(ti)`: given the `_cache` values of
the outgoing links and the compartment size `self[ti]`, return the resolved link
values `link[ti] = link._cache * rescale * self[ti]` where `rescale = 1/outflow`
if the total cached outflow exceeds 1 and `rescale = 1` otherwise. -/
def Compartment.resolve_outflows (caches : List ℚ) (size : ℚ) : List ℚ :=
  let outflow := caches.foldl (fun a c => a + c) 0
  let rescale := if 1 < outflow then 1 / outflow else 1
  let n := rescale * size
  caches.map (fun c => c * n)

/-- Translation of `Compartment.update(ti)`: starting from `v = self[ti-1]`, subtract
every outlink value at `ti-1`, add every inlink value at `ti-1`, and store `v`
if positive else `0.0`. -/
def Compartment.update (prev : ℚ) (outVals inVals : List ℚ) : ℚ :=
  let v := prev
  let v := outVals.foldl (fun a o => a - o) v
  let v := inVals.foldl (fun a i => a + i) v
  if 0 < v then v else 0

/-- An integration run of a single plain compartment: tick 0 holds the initial value
(written by `Population.initialize_compartments`), and each later tick is produced by
`Compartment.update` from the previous tick and the link flows of the previous tick
(`outs tr` / `ins tr` list the outlink / inlink values at tick `tr`). -/
def compartmentRun (v0 : ℚ) (outs ins : ℕ → List ℚ) : ℕ → ℚ
  | 0 => v0
  | ti + 1 => Compartment.update (compartmentRun v0 outs ins ti) (outs ti) (ins ti)

/-! ## Model.update_links (model.py lines 2105-2191)

For each parameter driving links, the parameter value at the current tick is
converted into a per-timestep quantity cached on each link. The unit formats
of transition parameters are duration, probability, number and proportion;
any other unit string raises an exception (not modelled, outside the claims). -/

/-- Unit formats a transition parameter can have in `update_links`. -/
inductive Units
  | duration
  | probability
  | number
  | proportion
deriving DecidableEq, Repr

/-- Translation of the per-parameter cache computation in `Model.update_links`:
given the parameter value `par[ti]`, the timestep `dt`, the parameter timescale,
whether the (single) link source is a `SourceCompartment`, and the source popsize,
return the value written to `link._cache` (`none` when the code leaves the cache
untouched, which happens only for nonzero proportion-unit parameters whose links
are processed during junction balancing instead). A negative parameter value is
clamped to zero (the source also emits a warning, not modelled), and a zero
transition short-circuits to a zero cache for every unit type. -/
def update_link_cache (units : Units) (parVal dt timescale : ℚ)
    (srcIsSource : Bool) (sourcePopsize : ℚ) : Option ℚ :=
  let transition := if parVal < 0 then 0 else parVal
  if transition = 0 then some 0
  else
    match units with
    | Units.duration => some (min 1 (dt / (transition * timescale)))
    | Units.probability => some (min 1 (transition * (dt / timescale)))
    | Units.number =>
      let converted_amt := transition * (dt / timescale)
      if srcIsSource then some converted_amt
      else if sourcePopsize ≠ 0 then some (converted_amt / sourcePopsize)
      else some 0
    | Units.proportion => none

/-! ## Theorems for claim C1 -/

theorem resolve_outflows_sum (caches : List ℚ) (size : ℚ)
    (hc : ∀ c ∈ caches, 0 ≤ c) (hs : 0 ≤ size) :
    (Compartment.resolve_outflows caches size).foldl (fun a c => a + c) 0 ≤ size := by
  unfold Compartment.resolve_outflows
  have hfold : ∀ (l : List ℚ) (a : ℚ), l.foldl (fun x c => x + c) a = a + l.sum := by
    intro l
    induction l with
    | nil => intro a; simp
    | cons x xs ih => intro a; simp [List.foldl_cons, ih, List.sum_cons]; ring
  have hsum_nonneg : 0 ≤ caches.sum := List.sum_nonneg hc
  have hmap : (caches.map (fun c => c * ((if 1 < caches.foldl (fun a c => a + c) 0 then
      1 / caches.foldl (fun a c => a + c) 0 else 1) * size))).sum
      = caches.sum * ((if 1 < caches.foldl (fun a c => a + c) 0 then
      1 / caches.foldl (fun a c => a + c) 0 else 1) * size) := by
    rw [List.sum_map_mul_right]
    simp
  simp only [hfold, zero_add] at *
  rw [hmap]
  by_cases h1 : 1 < caches.sum
  · simp only [if_pos h1]
    have hpos : 0 < caches.sum := lt_trans one_pos h1
    rw [div_mul_eq_mul_div, one_mul, ← mul_div_assoc, mul_comm, mul_div_assoc,
      div_self (ne_of_gt hpos), mul_one]
  · simp only [if_neg h1]
    push_neg at h1
    rw [one_mul]
    calc caches.sum * size ≤ 1 * size := by
          exact mul_le_mul_of_nonneg_right h1 hs
      _ = size := one_mul size

/-- Claim C1: for every integration run and every tick, the plain-compartment value
is nonnegative (finiteness is automatic over ℚ): `Compartment.update` clamps the
stepped value at zero, so from a nonnegative initial value every tick is
nonnegative for arbitrary inflow and outflow sequences; and
`Compartment.resolve_outflows` rescales the cached fractions so that the total
resolved outflow never exceeds the compartment size. -/
theorem compartment_nonneg_invariant (v0 : ℚ) (outs ins : ℕ → List ℚ)
    (h0 : 0 ≤ v0) (caches : List ℚ) (size : ℚ)
    (hc : ∀ c ∈ caches, 0 ≤ c) (hsize : 0 ≤ size) :
    (∀ ti : ℕ, 0 ≤ compartmentRun v0 outs ins ti) ∧
    (Compartment.resolve_outflows caches size).foldl (fun a c => a + c) 0 ≤ size := by
  constructor
  · intro ti
    induction ti with
    | zero => exact h0
    | succ n _ =>
      show 0 ≤ Compartment.update (compartmentRun v0 outs ins n) (outs n) (ins n)
      unfold Compartment.update
      by_cases h : 0 < (ins n).foldl (fun a i => a + i)
          ((outs n).foldl (fun a o => a - o) (compartmentRun v0 outs ins n))
      · simpa [h] using le_of_lt h
      · simp [h]
  · exact resolve_outflows_sum caches size hc hsize

/-- Witness for C1 at a concrete input. -/
theorem compartment_nonneg_invariant_witness :
    0 ≤ (3 : ℚ) ∧
    ((∀ ti : ℕ, 0 ≤ compartmentRun 3 (fun _ => [2]) (fun _ => [1]) ti) ∧
     (Compartment.resolve_outflows [1/2, 3/4] 10).foldl (fun a c => a + c) 0 ≤ 10) := by
  refine ⟨by norm_num, ?_⟩
  exact compartment_nonneg_invariant 3 (fun _ => [2]) (fun _ => [1]) (by norm_num)
    [1/2, 3/4] 10 (by intro c hc; fin_cases hc <;> norm_num) (by norm_num)

/-! ## Theorems for claim C2 -/

/-- Claim C2: the cache written by `update_links` for a parameter driving links is,
after clamping a negative value to zero: for duration units `min(1, dt/(val*timescale))`;
for probability units `min(1, val*dt/timescale)`; for number units with a non-source
source compartment `(val*dt/timescale)/source_popsize` when the source popsize is
positive and `0` when it is zero; and for number units out of a source compartment
the converted amount `val*dt/timescale` itself, independent of the source size. -/
theorem update_links_cache_formulas (dt timescale : ℚ) (hdt : 0 < dt) (hts : 0 < timescale) :
    (∀ v : ℚ, 0 < v →
      update_link_cache Units.duration v dt timescale false 0
        = some (min 1 (dt / (v * timescale)))) ∧
    (∀ v : ℚ, v < 0 →
      update_link_cache Units.duration v dt timescale false 0 = some 0) ∧
    (∀ v : ℚ, 0 ≤ v →
      update_link_cache Units.probability v dt timescale false 0
        = some (min 1 (v * dt / timescale))) ∧
    (∀ v ps : ℚ, 0 ≤ v → 0 < ps →
      update_link_cache Units.number v dt timescale false ps
        = some ((v * dt / timescale) / ps)) ∧
    (∀ v : ℚ, 0 ≤ v →
      update_link_cache Units.number v dt timescale false 0 = some 0) ∧
    (∀ v ps : ℚ, 0 ≤ v →
      update_link_cache Units.number v dt timescale true ps
        = some (v * dt / timescale)) := by
  refine ⟨?_, ?_, ?_, ?_, ?_, ?_⟩
  · intro v hv
    have hne : v ≠ 0 := ne_of_gt hv
    have hnneg : ¬ v < 0 := not_lt.mpr (le_of_lt hv)
    simp [update_link_cache, hnneg, hne]
  · intro v hv
    simp [update_link_cache, hv]
  · intro v hv
    rcases eq_or_lt_of_le hv with h0 | hpos
    · have hz : v = 0 := h0.symm
      subst hz
      simp [update_link_cache, mul_div_assoc]
    · have hne : v ≠ 0 := ne_of_gt hpos
      have hnneg : ¬ v < 0 := not_lt.mpr hv
      simp [update_link_cache, hnneg, hne, mul_div_assoc]
  · intro v ps hv hps
    have hpsne : ps ≠ 0 := ne_of_gt hps
    rcases eq_or_lt_of_le hv with h0 | hpos
    · have hz : v = 0 := h0.symm
      subst hz
      simp [update_link_cache]
    · have hne : v ≠ 0 := ne_of_gt hpos
      have hnneg : ¬ v < 0 := not_lt.mpr hv
      simp [update_link_cache, hnneg, hne, hpsne, mul_div_assoc]
  · intro v hv
    rcases eq_or_lt_of_le hv with h0 | hpos
    · have hz : v = 0 := h0.symm
      subst hz
      simp [update_link_cache]
    · have hne : v ≠ 0 := ne_of_gt hpos
      have hnneg : ¬ v < 0 := not_lt.mpr hv
      simp [update_link_cache, hnneg, hne]
  · intro v ps hv
    rcases eq_or_lt_of_le hv with h0 | hpos
    · have hz : v = 0 := h0.symm
      subst hz
      simp [update_link_cache]
    · have hne : v ≠ 0 := ne_of_gt hpos
      have hnneg : ¬ v < 0 := not_lt.mpr hv
      simp [update_link_cache, hnneg, hne, mul_div_assoc]

/-- Witness for C2 at concrete inputs. -/
theorem update_links_cache_formulas_witness :
    0 < (1 : ℚ) / 4 ∧ 0 < (1 : ℚ) ∧
    update_link_cache Units.duration 2 (1/4) 1 false 0 = some (min 1 ((1/4) / (2 * 1))) := by
  refine ⟨by norm_num, by norm_num, ?_⟩
  exact (update_links_cache_formulas (1/4) 1 (by norm_num) (by norm_num)).1 2 (by norm_num)

/-! ## Population.initialize_compartments (model.py lines 1708-1815)

The initialization solver assembles the inclusion matrix `A` and target vector `b`,
obtains `x` from `np.linalg.lstsq(A, b)` (the external least-squares solver; `x` is
taken as an input below, so the statements hold for whatever vector the solver
returns), forms `proposed = A x` and the squared residual, and raises
`BadInitialization` on any of the three failure conditions; otherwise it writes
`max(0, x_i)` into `vals[0]` of each compartment. -/

/-- Dot product of a matrix row with the solution vector. -/
def dotProduct (row x : List ℚ) : ℚ := (List.zipWith (fun a b => a * b) row x).sum

/-- Translation of `proposed = np.matmul(A, x)`. -/
def matVec (A : List (List ℚ)) (x : List ℚ) : List ℚ := A.map (fun row => dotProduct row x)

/-- Translation of `residual = np.sum((proposed.ravel()-b.ravel())**2)`. -/
def initResidual (proposed b : List ℚ) : ℚ :=
  (List.zipWith (fun p q => (p - q) ^ 2) proposed b).sum

/-- Translation of the characteristic tolerance loop: `characteristic_tolerence_failed`
becomes true when `abs(proposed[i] - b[i]) > tolerance` for some row. -/
def characFailed (proposed b : List ℚ) : Bool :=
  (List.zipWith (fun p q => decide (model_settings_tolerance < |p - q|)) proposed b).any id

/-- Translation of `np.any(np.less(x, -tolerance))` (also the guard of the
negative-compartment diagnostic loop). -/
def anyNegative (x : List ℚ) : Bool :=
  x.any (fun xi => decide (xi < -model_settings_tolerance))

/-- Translation of the failure/success logic of `Population.initialize_compartments`,
taking the solver output `x` as input. The four raise branches mirror the source:
residual too large, negative popsizes, characteristic tolerance failures, and the
fallback branch guarded by a nonempty accumulated error message (the message is
nonempty exactly when a characteristic failed or a compartment was negative).
On success the returned list is the clamped assignment written to `vals[0]`. -/
def initialize_compartments (A : List (List ℚ)) (b x : List ℚ) : Except String (List ℚ) :=
  let proposed := matVec A x
  let residual := initResidual proposed b
  if model_settings_tolerance < residual then
    Except.error "Global residual was unacceptably large"
  else if anyNegative x then
    Except.error "Negative initial popsizes"
  else if characFailed proposed b then
    Except.error "Characteristics failed to meet tolerances"
  else if characFailed proposed b || anyNegative x then
    Except.error "Initialization error"
  else
    Except.ok (x.map (fun xi => max 0 xi))

/-- Translation of `TimedCompartment.__setitem__` at time index 0: the assigned total
is distributed equally over the subcompartment rows,
`_vals[:, 0] = value / (shape[0] * ones(shape[0], 1))`. -/
def TimedCompartment.setInitial (rows : ℕ) (value : ℚ) : List ℚ :=
  List.replicate rows (value / rows)

/-! ## Theorems for claim C4 -/

/-- Claim C4: `initialize_compartments` succeeds (returns the compartment assignment
rather than raising `BadInitialization`) exactly when the residual is within the
tolerance 1e-6, no solved value is below minus the tolerance, and every
characteristic target matches `A x` to within the tolerance; on success, each plain
compartment receives `vals[0] = max(0, x_i)`, and assigning a timed compartment its
initial value distributes it evenly over the subcompartment rows. -/
theorem initialization_solver_spec (A : List (List ℚ)) (b x : List ℚ) (R : ℕ) (v : ℚ)
    (hR : 0 < R) :
    ((∃ vals, initialize_compartments A b x = Except.ok vals) ↔
      (initResidual (matVec A x) b ≤ model_settings_tolerance ∧
       (∀ xi ∈ x, -model_settings_tolerance ≤ xi) ∧
       (∀ d ∈ List.zipWith (fun p q => |p - q|) (matVec A x) b,
         d ≤ model_settings_tolerance))) ∧
    (∀ vals, initialize_compartments A b x = Except.ok vals →
      vals = x.map (fun xi => max 0 xi)) ∧
    ((TimedCompartment.setInitial R v).length = R ∧
     (∀ e ∈ TimedCompartment.setInitial R v, e = v / R) ∧
     (TimedCompartment.setInitial R v).sum = v) := by
  have hchargen : ∀ (l1 l2 : List ℚ),
      ((List.zipWith (fun p q => decide (model_settings_tolerance < |p - q|)) l1 l2).any id
        = false)
      ↔ ∀ d ∈ List.zipWith (fun p q => |p - q|) l1 l2, d ≤ model_settings_tolerance := by
    intro l1
    induction l1 with
    | nil => intro l2; simp
    | cons p ps ih =>
      intro l2
      cases l2 with
      | nil => simp
      | cons q qs =>
        simp only [List.zipWith_cons_cons, List.any_cons, Bool.or_eq_false_iff,
          List.mem_cons, id]
        rw [ih qs]
        constructor
        · rintro ⟨h1, h2⟩ d hd
          rcases hd with rfl | hd
          · exact not_lt.mp (by simpa using h1)
          · exact h2 d hd
        · intro h
          refine ⟨by simpa using not_lt.mpr (h _ (Or.inl rfl)),
            fun d hd => h d (Or.inr hd)⟩
  have hchar : characFailed (matVec A x) b = false ↔
      ∀ d ∈ List.zipWith (fun p q => |p - q|) (matVec A x) b,
        d ≤ model_settings_tolerance := hchargen (matVec A x) b
  have hneg : anyNegative x = false ↔ ∀ xi ∈ x, -model_settings_tolerance ≤ xi := by
    unfold anyNegative
    simp [List.any_eq_false, not_lt]
  refine ⟨?_, ?_, ?_, ?_, ?_⟩
  · constructor
    · rintro ⟨vals, hvals⟩
      unfold initialize_compartments at hvals
      by_cases h1 : model_settings_tolerance < initResidual (matVec A x) b
      · simp [h1] at hvals
      by_cases h2 : anyNegative x = true
      · simp [h1, h2] at hvals
      by_cases h3 : characFailed (matVec A x) b = true
      · simp [h1, h2, h3] at hvals
      refine ⟨not_lt.mp h1, hneg.mp (Bool.not_eq_true _ ▸ h2), hchar.mp (Bool.not_eq_true _ ▸ h3)⟩
    · rintro ⟨h1, h2, h3⟩
      refine ⟨x.map (fun xi => max 0 xi), ?_⟩
      unfold initialize_compartments
      rw [if_neg (not_lt.mpr h1)]
      rw [hneg.mpr h2, hchar.mpr h3]
      simp
  · intro vals hvals
    unfold initialize_compartments at hvals
    by_cases h1 : model_settings_tolerance < initResidual (matVec A x) b
    · simp [h1] at hvals
    by_cases h2 : anyNegative x = true
    · simp [h1, h2] at hvals
    by_cases h3 : characFailed (matVec A x) b = true
    · simp [h1, h2, h3] at hvals
    simp only [h1, if_false, Bool.not_eq_true] at h2 h3
    simp [h1, h2, h3] at hvals
    exact hvals.symm
  · simp [TimedCompartment.setInitial]
  · intro e he
    unfold TimedCompartment.setInitial at he
    exact List.eq_of_mem_replicate he
  · unfold TimedCompartment.setInitial
    rw [List.sum_replicate, nsmul_eq_mul]
    have hRQ : (R : ℚ) ≠ 0 := Nat.cast_ne_zero.mpr hR.ne'
    field_simp

/-- Witness for C4 at a concrete input: a 1x1 consistent system. -/
theorem initialization_solver_spec_witness :
    0 < 2 ∧
    ((∃ vals, initialize_compartments [[1]] [5] [5] = Except.ok vals) ↔
      (initResidual (matVec [[1]] [5]) [5] ≤ model_settings_tolerance ∧
       (∀ xi ∈ [(5 : ℚ)], -model_settings_tolerance ≤ xi) ∧
       (∀ d ∈ List.zipWith (fun p q => |p - q|) (matVec [[1]] [5]) [5],
         d ≤ model_settings_tolerance))) := by
  refine ⟨by norm_num, ?_⟩
  exact (initialization_solver_spec [[1]] [5] [5] 2 7 (by norm_num)).1

/-! ## TimedCompartment.preallocate and the vals property (model.py lines 632-727)

A TimedCompartment stores a matrix `_vals` with one row per duration
subcompartment. `preallocate` asserts that the driving duration parameter is
constant over time, computes the duration in years as
`vals[0] * timescale * scale_factor`, and allocates `ceil(duration/dt)` rows.
The exposed `vals` is the sum of the matrix over rows (axis 0). The matrix is
modelled as a list of rows, each row a function from time index to value. -/

/-- Translation of `TimedCompartment.preallocate`: returns the allocated row count,
or `none` when the assertion `np.all(parameter.vals == parameter.vals[0])` fails
(a time-varying duration parameter; indexing an empty array also faults). -/
def TimedCompartment.preallocate (parVals : List ℚ) (timescale scale_factor dt : ℚ) :
    Option ℤ :=
  match parVals with
  | [] => none
  | v0 :: rest =>
    if (v0 :: rest).all (fun v => v = v0) then
      some ⌈(v0 * timescale * scale_factor) / dt⌉
    else none

/-- Translation of the `TimedCompartment.vals` property: `self._vals.sum(axis=0)`,
the per-column sum of the internal matrix. -/
def TimedCompartment.vals (rows : List (ℕ → ℚ)) (ti : ℕ) : ℚ :=
  (rows.map (fun r => r ti)).sum

/-- A column write to the internal matrix (the shape all in-place updates of
`_vals` take: every row is written at one time index, as in `__setitem__`,
`resolve_outflows` and `update`); the row structure itself is untouched. -/
def writeColumn (rows : List (ℕ → ℚ)) (ti : ℕ) (colVals : List ℚ) : List (ℕ → ℚ) :=
  List.zipWith (fun r v => Function.update r ti v) rows colVals

/-! ## Theorems for claim C5 -/

/-- Claim C5: for a timed compartment whose preallocation succeeds, the internal
matrix has `ceil(duration_years / dt)` rows where `duration_years` is the constant
value of the duration parameter scaled by timescale and scale factor; the row count
is invariant under every column write performed during the simulation; and the
exposed `vals` at every tick equals the column sum of the internal matrix. -/
theorem timed_compartment_storage_spec (v0 : ℚ) (rest : List ℚ) (ts sf dt : ℚ) (R : ℤ)
    (h : TimedCompartment.preallocate (v0 :: rest) ts sf dt = some R) :
    R = ⌈(v0 * ts * sf) / dt⌉ ∧
    (∀ (rows : List (ℕ → ℚ)) (ti : ℕ) (col : List ℚ), col.length = rows.length →
      (writeColumn rows ti col).length = rows.length) ∧
    (∀ (rows : List (ℕ → ℚ)) (ti : ℕ),
      TimedCompartment.vals rows ti = (rows.map (fun r => r ti)).sum) := by
  refine ⟨?_, ?_, ?_⟩
  · simp only [TimedCompartment.preallocate] at h
    by_cases hall : ((v0 :: rest).all fun v => v = v0) = true
    · rw [if_pos hall] at h
      exact (Option.some_injective _ h).symm
    · rw [if_neg hall] at h
      exact absurd h (by simp)
  · intro rows ti col hlen
    unfold writeColumn
    rw [List.length_zipWith, hlen, min_self]
  · intro rows ti
    rfl

/-- Witness for C5 at a concrete input. -/
theorem timed_compartment_storage_spec_witness :
    TimedCompartment.preallocate [2, 2] 1 1 (1/4) = some 8 ∧
    (8 : ℤ) = ⌈((2 : ℚ) * 1 * 1) / (1/4)⌉ := by
  have hpre : TimedCompartment.preallocate [2, 2] 1 1 (1/4) = some 8 := by
    simp only [TimedCompartment.preallocate]
    norm_num
  exact ⟨hpre, (timed_compartment_storage_spec 2 [2] 1 1 (1/4) 8 hpre).1⟩

/-! ## Theorems for claim C10 -/

/-- Claim C10: `TimedCompartment.preallocate` succeeds exactly when the driving
duration parameter takes the same value at every time point (the assertion
`np.all(parameter.vals == parameter.vals[0])`, checked before integration starts),
so a time-varying duration parameter is rejected; when it succeeds, the effective
duration determining the row count is `vals[0] * timescale * scale_factor` and the
row count is its ratio to `dt`, rounded up. -/
theorem timed_preallocate_assertion (v0 : ℚ) (rest : List ℚ) (ts sf dt : ℚ) :
    ((TimedCompartment.preallocate (v0 :: rest) ts sf dt).isSome ↔
      ∀ v ∈ v0 :: rest, v = v0) ∧
    (∀ R, TimedCompartment.preallocate (v0 :: rest) ts sf dt = some R →
      R = ⌈(v0 * ts * sf) / dt⌉) := by
  constructor
  · simp only [TimedCompartment.preallocate]
    by_cases hall : ((v0 :: rest).all fun v => v = v0) = true
    · rw [if_pos hall]
      simp only [Option.isSome_some, true_iff]
      intro v hv
      have := List.all_eq_true.mp hall v hv
      exact of_decide_eq_true this
    · rw [if_neg hall]
      simp only [Option.isSome_none, Bool.false_eq_true, false_iff]
      intro hcon
      apply hall
      rw [List.all_eq_true]
      intro v hv
      exact decide_eq_true (hcon v hv)
  · intro R h
    simp only [TimedCompartment.preallocate] at h
    by_cases hall : ((v0 :: rest).all fun v => v = v0) = true
    · rw [if_pos hall] at h
      exact (Option.some_injective _ h).symm
    · rw [if_neg hall] at h
      exact absurd h (by simp)

/-- Witness for C10: a time-varying duration parameter is rejected, a constant one
is accepted. -/
theorem timed_preallocate_assertion_witness :
    ((TimedCompartment.preallocate [3, 4] 1 1 (1/2)).isSome ↔
      ∀ v ∈ [(3 : ℚ), 4], v = 3) ∧
    TimedCompartment.preallocate [3, 4] 1 1 (1/2) = none := by
  refine ⟨(timed_preallocate_assertion 3 [4] 1 1 (1/2)).1, ?_⟩
  simp only [TimedCompartment.preallocate]
  norm_num

/-! ## Characteristic.update (model.py lines 878-937)

A characteristic value at a tick is the sum of the values of its includes (which
may be compartments or other characteristics, themselves updated at the same tick
by the same rule) and, when a denominator is present, the ratio with the 0/0 and
x/0 policy. Values can be IEEE positive infinity (the x/0 case), so the value
domain is the rationals extended with an infinity element; NaN never arises here
because all inputs are updated values. -/

/-- Value domain for characteristics: a finite float (modelled by ℚ) or positive
infinity, with the float arithmetic on these values used by the source. -/
inductive XQ
  | fin (x : ℚ)
  | inf
deriving DecidableEq, Repr

/-- Float addition restricted to finite-or-positive-infinite values. -/
def XQ.add : XQ → XQ → XQ
  | XQ.fin a, XQ.fin b => XQ.fin (a + b)
  | XQ.fin _, XQ.inf => XQ.inf
  | XQ.inf, XQ.fin _ => XQ.inf
  | XQ.inf, XQ.inf => XQ.inf

/-- Float comparison `0 < x` (positive infinity is positive). -/
def XQ.isPos : XQ → Bool
  | XQ.fin a => decide (0 < a)
  | XQ.inf => true

/-- Float comparison `x < tolerance` (positive infinity is never below it). -/
def XQ.ltTol : XQ → Bool
  | XQ.fin a => decide (a < model_settings_tolerance)
  | XQ.inf => false

/-- Float division for a positive denominator: a finite quotient, infinity divided
by anything positive stays infinity, and a finite value divided by infinity is 0. -/
def XQ.div : XQ → XQ → XQ
  | XQ.fin a, XQ.fin b => XQ.fin (a / b)
  | XQ.inf, XQ.fin _ => XQ.inf
  | XQ.fin _, XQ.inf => XQ.fin 0
  | XQ.inf, XQ.inf => XQ.inf

/-- The include structure of a characteristic: a compartment leaf carrying its value
at the current tick, or a nested characteristic with its own includes and optional
denominator. -/
inductive CharNode
  | comp (v : ℚ)
  | charac (includes : List CharNode) (denominator : Option CharNode)

mutual

/-- Translation of `Characteristic.update(ti)`: start the accumulator at 0, add the
value of every include in order, then apply the denominator policy: divide when
`denom > 0`, yield 0 when the numerator is below the tolerance (the 0/0 case),
else positive infinity (the x/0 case). A nested characteristic include contributes
its own updated value, computed by the same rule. -/
def Characteristic.update : CharNode → XQ
  | CharNode.comp v => XQ.fin v
  | CharNode.charac incs denom =>
    let n := Characteristic.sumIncludes (XQ.fin 0) incs
    match denom with
    | none => n
    | some d =>
      let dv := Characteristic.update d
      if dv.isPos then n.div dv
      else if n.ltTol then XQ.fin 0
      else XQ.inf

/-- The accumulation loop `for comp in self.includes: self._vals[ti] += comp[ti]`. -/
def Characteristic.sumIncludes : XQ → List CharNode → XQ
  | acc, [] => acc
  | acc, c :: rest => Characteristic.sumIncludes (acc.add (Characteristic.update c)) rest

end

mutual

/-- Statement of the claim wording: the recursive sum of all included compartment
values through nested characteristics (ignoring denominators). -/
def compSum : CharNode → ℚ
  | CharNode.comp v => v
  | CharNode.charac incs _ => compSumList incs

/-- Recursive compartment sum of a list of includes. -/
def compSumList : List CharNode → ℚ
  | [] => 0
  | c :: rest => compSum c + compSumList rest

end

mutual

/-- Whether a characteristic tree contains no denominators anywhere. -/
def denomFree : CharNode → Bool
  | CharNode.comp _ => true
  | CharNode.charac incs denom => denom.isNone && denomFreeList incs

/-- Whether every tree in a list of includes is denominator free. -/
def denomFreeList : List CharNode → Bool
  | [] => true
  | c :: rest => denomFree c && denomFreeList rest

end

theorem sumIncludes_fin (incs : List CharNode) :
    ∀ a : ℚ, (∀ c ∈ incs, ∃ q, Characteristic.update c = XQ.fin q) →
    ∃ s : ℚ, Characteristic.sumIncludes (XQ.fin a) incs = XQ.fin s ∧
      s = a + (incs.map (fun c => match Characteristic.update c with
        | XQ.fin q => q
        | XQ.inf => 0)).sum := by
  induction incs with
  | nil =>
    intro a _
    exact ⟨a, rfl, by simp⟩
  | cons c rest ih =>
    intro a h
    obtain ⟨q, hq⟩ := h c (List.mem_cons_self c rest)
    have hrest : ∀ x ∈ rest, ∃ q, Characteristic.update x = XQ.fin q :=
      fun x hx => h x (List.mem_cons_of_mem c hx)
    obtain ⟨s, hs, hsum⟩ := ih (a + q) hrest
    refine ⟨s, ?_, ?_⟩
    · show Characteristic.sumIncludes ((XQ.fin a).add (Characteristic.update c)) rest
        = XQ.fin s
      rw [hq]
      exact hs
    · rw [hsum, List.map_cons, List.sum_cons, hq]
      ring

theorem denomFreeList_mem (incs : List CharNode) (h : denomFreeList incs = true) :
    ∀ c ∈ incs, denomFree c = true := by
  induction incs with
  | nil => intro c hc; exact absurd hc (List.not_mem_nil c)
  | cons x rest ih =>
    rw [denomFreeList, Bool.and_eq_true_iff] at h
    intro c hc
    rcases List.mem_cons.mp hc with rfl | hx
    · exact h.1
    · exact ih h.2 c hx

theorem map_update_eq_compSumList (incs : List CharNode)
    (hmem : ∀ c ∈ incs, Characteristic.update c = XQ.fin (compSum c)) :
    (incs.map (fun c => match Characteristic.update c with
      | XQ.fin q => q
      | XQ.inf => 0)).sum = compSumList incs := by
  induction incs with
  | nil => simp [compSumList]
  | cons x rest ih =>
    rw [List.map_cons, List.sum_cons, compSumList, hmem x (List.mem_cons_self x rest),
      ih (fun c hc => hmem c (List.mem_cons_of_mem x hc))]

theorem update_denomFree_aux (n : ℕ) :
    ∀ t : CharNode, sizeOf t ≤ n → denomFree t = true →
      Characteristic.update t = XQ.fin (compSum t) := by
  induction n with
  | zero =>
    intro t hsize _
    exact absurd hsize (by cases t <;> simp <;> omega)
  | succ n ih =>
    intro t hsize hfree
    cases t with
    | comp v => rfl
    | charac incs denom =>
      rw [denomFree] at hfree
      obtain ⟨hnone, hlist⟩ := Bool.and_eq_true_iff.mp hfree
      have hdenom : denom = none := Option.isNone_iff_eq_none.mp hnone
      subst hdenom
      have hmem : ∀ c ∈ incs, Characteristic.update c = XQ.fin (compSum c) := by
        intro c hc
        apply ih c
        · have h1 : sizeOf c < sizeOf incs := List.sizeOf_lt_of_mem hc
          have h2 : sizeOf incs < sizeOf (CharNode.charac incs none) := by
            simp
            omega
          omega
        · exact denomFreeList_mem incs hlist c hc
      obtain ⟨s, hs, hsum⟩ := sumIncludes_fin incs 0
        (fun c hc => ⟨compSum c, hmem c hc⟩)
      show Characteristic.sumIncludes (XQ.fin 0) incs = XQ.fin (compSum (CharNode.charac incs none))
      rw [hs]
      congr 1
      rw [hsum, zero_add]
      exact map_update_eq_compSumList incs hmem

/-! ## Theorems for claim C7 -/

/-- Claim C7: when a characteristic with a denominator is updated at a tick, its
value is the numerator (the sum of its includes, where a denominator-free include
tree contributes the recursive sum of its compartment values) divided by the
denominator value when that is positive; when the denominator is not positive the
result is 0 if the numerator is below the tolerance (the 0/0 case) and positive
infinity if the numerator is at least the tolerance (the x/0 case). -/
theorem characteristic_denominator_policy (incs : List CharNode) (dnode : CharNode)
    (nval dval : ℚ)
    (hn : Characteristic.sumIncludes (XQ.fin 0) incs = XQ.fin nval)
    (hd : Characteristic.update dnode = XQ.fin dval) :
    (Characteristic.update (CharNode.charac incs (some dnode)) =
      if 0 < dval then XQ.fin (nval / dval)
      else if nval < model_settings_tolerance then XQ.fin 0
      else XQ.inf) ∧
    (∀ t : CharNode, denomFree t = true →
      Characteristic.update t = XQ.fin (compSum t)) := by
  constructor
  · show (let n := Characteristic.sumIncludes (XQ.fin 0) incs
      let dv := Characteristic.update dnode
      if dv.isPos then n.div dv
      else if n.ltTol then XQ.fin 0
      else XQ.inf) = _
    simp only [hn, hd]
    by_cases hpos : 0 < dval
    · simp [XQ.isPos, XQ.div, hpos]
    · by_cases htol : nval < model_settings_tolerance
      · simp [XQ.isPos, XQ.ltTol, hpos, htol]
      · simp [XQ.isPos, XQ.ltTol, hpos, htol]
  · intro t hfree
    exact update_denomFree_aux (sizeOf t) t le_rfl hfree

/-- Witness for C7 at a concrete input: numerator 4 (from a nested characteristic),
denominator 2. -/
theorem characteristic_denominator_policy_witness :
    Characteristic.sumIncludes (XQ.fin 0)
      [CharNode.comp 1, CharNode.charac [CharNode.comp 3] none] = XQ.fin 4 ∧
    Characteristic.update (CharNode.comp 2) = XQ.fin 2 ∧
    Characteristic.update (CharNode.charac
      [CharNode.comp 1, CharNode.charac [CharNode.comp 3] none]
      (some (CharNode.comp 2))) =
      (if (0 : ℚ) < 2 then XQ.fin (4 / 2)
       else if (4 : ℚ) < model_settings_tolerance then XQ.fin 0
       else XQ.inf) := by
  have h1 : Characteristic.sumIncludes (XQ.fin 0)
      [CharNode.comp 1, CharNode.charac [CharNode.comp 3] none] = XQ.fin 4 := by
    show Characteristic.sumIncludes
      ((XQ.fin 0).add (XQ.fin 1)) [CharNode.charac [CharNode.comp 3] none] = XQ.fin 4
    show Characteristic.sumIncludes
      (((XQ.fin 0).add (XQ.fin 1)).add
        (Characteristic.update (CharNode.charac [CharNode.comp 3] none))) [] = XQ.fin 4
    have : Characteristic.update (CharNode.charac [CharNode.comp 3] none) = XQ.fin 3 := by
      show Characteristic.sumIncludes (XQ.fin 0) [CharNode.comp 3] = XQ.fin 3
      show Characteristic.sumIncludes ((XQ.fin 0).add (XQ.fin 3)) [] = XQ.fin 3
      show ((XQ.fin 0).add (XQ.fin 3)) = XQ.fin 3
      simp [XQ.add]
    rw [this]
    show ((XQ.fin 0).add (XQ.fin 1)).add (XQ.fin 3) = XQ.fin 4
    simp [XQ.add]
    norm_num
  have h2 : Characteristic.update (CharNode.comp 2) = XQ.fin 2 := rfl
  exact ⟨h1, h2,
    (characteristic_denominator_policy _ (CharNode.comp 2) 4 2 h1 h2).1⟩

/-! ## FunctionParser (parser_function.py)

The grammar (BODMAS over the binary operators, unary minus, numeric literals,
identifiers, the builtin unary functions exp/floor/ceil and binary functions
min/max) parses a string into a tree; the parse actions `push_first` and
`push_unary_minus` serialize it in postfix order into `expr_stack` while
`note_variable` records every identifier into `var_dict`. `evaluate_stack` then
pops tokens from the end of the stack and evaluates recursively; an identifier
token is looked up in the dependency map and a missing entry raises the
unbound-identifier error. Binary operator and unary-function semantics come from
the `op_dict` / `ufn_dict` tables of the parser object (float functions such as
`math.exp`), so they are passed as an interpretation record below; the structure
of the evaluator does not depend on them. -/

/-- The binary operator tokens of the grammar (`+ - * / ^`, with `**` mapped to
the same power operation by `op_dict`). -/
inductive BinOp
  | add
  | sub
  | mul
  | div
  | pow
deriving DecidableEq, Repr

/-- Tokens appearing on the evaluation stack, as classified by the dispatch in
`evaluate_stack`: the unary-minus marker, a binary operator, a unary function
name from `ufn_dict`, a binary function from `bfn_dict` (min or max), an
identifier (dispatched because its leading character is alphabetic), or a
numeric literal. -/
inductive Token
  | num (q : ℚ)
  | var (name : String)
  | binop (o : BinOp)
  | uminus
  | ufn (name : String)
  | bfn (isMin : Bool)
deriving DecidableEq, Repr

/-- Interpretation of the operator tables `op_dict` and `ufn_dict` (their float
semantics are opaque here; min and max are Lean min and max). -/
structure OpInterp where
  binop : BinOp → ℚ → ℚ → ℚ
  ufn : String → ℚ → ℚ

/-- Expression trees produced by the pyparsing grammar: BODMAS with unary minus,
literals, identifiers, unary builtins and binary builtins. -/
inductive Expr
  | num (q : ℚ)
  | var (name : String)
  | neg (e : Expr)
  | binop (o : BinOp) (e1 e2 : Expr)
  | ufn (name : String) (e : Expr)
  | bfn (isMin : Bool) (e1 e2 : Expr)

/-- Translation of `produce_stack` via the parse actions: operands are pushed
before their operator (`push_first` fires on inner matches first and
`push_unary_minus` after the whole primary), so the stack holds the postfix
serialization of the expression. -/
def produce_stack : Expr → List Token
  | Expr.num q => [Token.num q]
  | Expr.var s => [Token.var s]
  | Expr.neg e => produce_stack e ++ [Token.uminus]
  | Expr.binop o a b => produce_stack a ++ produce_stack b ++ [Token.binop o]
  | Expr.ufn f e => produce_stack e ++ [Token.ufn f]
  | Expr.bfn m a b => produce_stack a ++ produce_stack b ++ [Token.bfn m]

/-- Translation of `note_variable`: the identifiers recorded in `var_dict` while
parsing (the dependency list returned by `produce_stack`). -/
def var_dict : Expr → List String
  | Expr.num _ => []
  | Expr.var s => [s]
  | Expr.neg e => var_dict e
  | Expr.binop _ a b => var_dict a ++ var_dict b
  | Expr.ufn _ e => var_dict e
  | Expr.bfn _ a b => var_dict a ++ var_dict b

/-- The error message raised on a missing dependency (the unbound-identifier
error kind). -/
def unboundMessage (name : String) : String :=
  "Dependent variable " ++ name ++ " has not been provided a value via function parser"

/-- Translation of `stack.pop()`: remove and return the last element. -/
def stackPop (stack : List Token) : Option (Token × List Token) :=
  match stack.reverse with
  | [] => none
  | t :: r => some (t, r.reverse)

/-- Translation of `evaluate_stack`: pop the last token; a unary minus negates the
recursive value; a binary operator pops its second then its first operand value;
a unary function applies the `ufn_dict` entry; min and max pop second then first;
an identifier is looked up in `deps`, raising the unbound error when missing; any
other token is a literal. The fuel argument bounds the recursion depth (one unit
per popped token suffices); popping an empty stack is an error (IndexError in the
source, possible only for malformed stacks). -/
def evaluate_stack (I : OpInterp) (deps : String → Option ℚ) :
    ℕ → List Token → Except String (ℚ × List Token)
  | 0, _ => Except.error "out of fuel"
  | fuel + 1, stack =>
    match stackPop stack with
    | none => Except.error "pop from empty list"
    | some (t, rest) =>
      match t with
      | Token.uminus => do
        let (v, rest1) ← evaluate_stack I deps fuel rest
        pure (-v, rest1)
      | Token.binop o => do
        let (op2, rest1) ← evaluate_stack I deps fuel rest
        let (op1, rest2) ← evaluate_stack I deps fuel rest1
        pure (I.binop o op1 op2, rest2)
      | Token.ufn f => do
        let (v, rest1) ← evaluate_stack I deps fuel rest
        pure (I.ufn f v, rest1)
      | Token.bfn isMin => do
        let (op2, rest1) ← evaluate_stack I deps fuel rest
        let (op1, rest2) ← evaluate_stack I deps fuel rest1
        pure (if isMin then min op1 op2 else max op1 op2, rest2)
      | Token.var name =>
        match deps name with
        | some v => pure (v, rest)
        | none => Except.error (unboundMessage name)
      | Token.num q => pure (q, rest)

/-- Reference evaluation of the expression tree, with the same operand order as
the stack evaluator (second operand first, so the first error raised agrees). -/
def evalExpr (I : OpInterp) (deps : String → Option ℚ) : Expr → Except String ℚ
  | Expr.num q => pure q
  | Expr.var s =>
    match deps s with
    | some v => pure v
    | none => Except.error (unboundMessage s)
  | Expr.neg e => do
    let v ← evalExpr I deps e
    pure (-v)
  | Expr.binop o a b => do
    let vb ← evalExpr I deps b
    let va ← evalExpr I deps a
    pure (I.binop o va vb)
  | Expr.ufn f e => do
    let v ← evalExpr I deps e
    pure (I.ufn f v)
  | Expr.bfn m a b => do
    let vb ← evalExpr I deps b
    let va ← evalExpr I deps a
    pure (if m then min va vb else max va vb)

theorem stackPop_append (xs : List Token) (t : Token) :
    stackPop (xs ++ [t]) = some (t, xs) := by
  unfold stackPop
  rw [List.reverse_append]
  simp

theorem evaluate_stack_produce (I : OpInterp) (deps : String → Option ℚ) (e : Expr) :
    ∀ (fuel : ℕ) (rest : List Token), (produce_stack e).length ≤ fuel →
    evaluate_stack I deps fuel (rest ++ produce_stack e) =
      (evalExpr I deps e).map (fun v => (v, rest)) := by
  induction e with
  | num q =>
    intro fuel rest hfuel
    cases fuel with
    | zero => exact absurd hfuel (by simp [produce_stack])
    | succ fuel =>
      show evaluate_stack I deps (fuel + 1) (rest ++ [Token.num q]) = _
      rw [evaluate_stack, stackPop_append]
      rfl
  | var s =>
    intro fuel rest hfuel
    cases fuel with
    | zero => exact absurd hfuel (by simp [produce_stack])
    | succ fuel =>
      show evaluate_stack I deps (fuel + 1) (rest ++ [Token.var s]) = _
      rw [evaluate_stack, stackPop_append]
      show (match deps s with
        | some v => pure (v, rest)
        | none => Except.error (unboundMessage s)) = _
      rw [evalExpr]
      cases deps s <;> rfl
  | neg e ih =>
    intro fuel rest hfuel
    rw [produce_stack] at hfuel ⊢
    cases fuel with
    | zero => exact absurd hfuel (by simp)
    | succ fuel =>
      rw [← List.append_assoc, evaluate_stack, stackPop_append]
      have hlen : (produce_stack e).length ≤ fuel := by
        rw [List.length_append] at hfuel
        simp only [List.length_cons, List.length_nil] at hfuel
        omega
      show ((evaluate_stack I deps fuel (rest ++ produce_stack e)) >>=
        (fun vr => pure (-vr.1, vr.2))) = _
      rw [ih fuel rest hlen, evalExpr]
      cases evalExpr I deps e <;> rfl
  | binop o a b iha ihb =>
    intro fuel rest hfuel
    rw [produce_stack] at hfuel ⊢
    cases fuel with
    | zero => exact absurd hfuel (by simp)
    | succ fuel =>
      have hla : (produce_stack a).length ≤ fuel := by
        simp only [List.length_append, List.length_cons, List.length_nil] at hfuel
        omega
      have hlb : (produce_stack b).length ≤ fuel := by
        simp only [List.length_append, List.length_cons, List.length_nil] at hfuel
        omega
      rw [← List.append_assoc, ← List.append_assoc, evaluate_stack, stackPop_append]
      show ((evaluate_stack I deps fuel ((rest ++ produce_stack a) ++ produce_stack b)) >>=
        (fun vr2 => (evaluate_stack I deps fuel vr2.2) >>=
          (fun vr1 => pure (I.binop o vr1.1 vr2.1, vr1.2)))) = _
      rw [ihb fuel (rest ++ produce_stack a) hlb, evalExpr]
      cases hb : evalExpr I deps b with
      | error m => rfl
      | ok vb =>
        show ((evaluate_stack I deps fuel (rest ++ produce_stack a)) >>=
          (fun vr1 => pure (I.binop o vr1.1 vb, vr1.2))) = _
        rw [iha fuel rest hla]
        cases evalExpr I deps a <;> rfl
  | ufn f e ih =>
    intro fuel rest hfuel
    rw [produce_stack] at hfuel ⊢
    cases fuel with
    | zero => exact absurd hfuel (by simp)
    | succ fuel =>
      rw [← List.append_assoc, evaluate_stack, stackPop_append]
      have hlen : (produce_stack e).length ≤ fuel := by
        rw [List.length_append] at hfuel
        simp only [List.length_cons, List.length_nil] at hfuel
        omega
      show ((evaluate_stack I deps fuel (rest ++ produce_stack e)) >>=
        (fun vr => pure (I.ufn f vr.1, vr.2))) = _
      rw [ih fuel rest hlen, evalExpr]
      cases evalExpr I deps e <;> rfl
  | bfn m a b iha ihb =>
    intro fuel rest hfuel
    rw [produce_stack] at hfuel ⊢
    cases fuel with
    | zero => exact absurd hfuel (by simp)
    | succ fuel =>
      have hla : (produce_stack a).length ≤ fuel := by
        simp only [List.length_append, List.length_cons, List.length_nil] at hfuel
        omega
      have hlb : (produce_stack b).length ≤ fuel := by
        simp only [List.length_append, List.length_cons, List.length_nil] at hfuel
        omega
      rw [← List.append_assoc, ← List.append_assoc, evaluate_stack, stackPop_append]
      show ((evaluate_stack I deps fuel ((rest ++ produce_stack a) ++ produce_stack b)) >>=
        (fun vr2 => (evaluate_stack I deps fuel vr2.2) >>=
          (fun vr1 => pure ((if m then min vr1.1 vr2.1 else max vr1.1 vr2.1), vr1.2)))) = _
      rw [ihb fuel (rest ++ produce_stack a) hlb, evalExpr]
      cases hb : evalExpr I deps b with
      | error m2 => rfl
      | ok vb =>
        show ((evaluate_stack I deps fuel (rest ++ produce_stack a)) >>=
          (fun vr1 => pure ((if m then min vr1.1 vb else max vr1.1 vb), vr1.2))) = _
        rw [iha fuel rest hla]
        cases evalExpr I deps a <;> rfl

theorem evalExpr_ok_iff (I : OpInterp) (deps : String → Option ℚ) (e : Expr) :
    (∃ v, evalExpr I deps e = Except.ok v) ↔ ∀ s ∈ var_dict e, (deps s).isSome := by
  induction e with
  | num q =>
    refine ⟨fun _ s hs => absurd hs (List.not_mem_nil s), fun _ => ⟨q, rfl⟩⟩
  | var s =>
    cases hd : deps s with
    | none =>
      constructor
      · rintro ⟨v, hv⟩
        rw [evalExpr, hd] at hv
        exact Except.noConfusion hv
      · intro h
        have := h s (by rw [var_dict]; exact List.mem_singleton_self s)
        rw [hd] at this
        exact absurd this (by simp)
    | some v =>
      constructor
      · intro _ t ht
        rw [var_dict, List.mem_singleton] at ht
        subst ht
        rw [hd]
        rfl
      · intro _
        exact ⟨v, by rw [evalExpr, hd]; rfl⟩
  | neg e ih =>
    rw [var_dict]
    rw [← ih]
    constructor
    · rintro ⟨v, hv⟩
      rw [evalExpr] at hv
      cases he : evalExpr I deps e with
      | error m => rw [he] at hv; exact Except.noConfusion hv
      | ok w => exact ⟨w, rfl⟩
    · rintro ⟨w, hw⟩
      exact ⟨-w, by rw [evalExpr, hw]; rfl⟩
  | binop o a b iha ihb =>
    rw [var_dict]
    constructor
    · rintro ⟨v, hv⟩ s hs
      rw [evalExpr] at hv
      cases hb : evalExpr I deps b with
      | error m => rw [hb] at hv; exact Except.noConfusion hv
      | ok vb =>
        cases ha : evalExpr I deps a with
        | error m => rw [hb, ha] at hv; exact Except.noConfusion hv
        | ok va =>
          rcases List.mem_append.mp hs with h | h
          · exact (iha.mp ⟨va, ha⟩) s h
          · exact (ihb.mp ⟨vb, hb⟩) s h
    · intro h
      obtain ⟨vb, hb⟩ := ihb.mpr (fun s hs => h s (List.mem_append.mpr (Or.inr hs)))
      obtain ⟨va, ha⟩ := iha.mpr (fun s hs => h s (List.mem_append.mpr (Or.inl hs)))
      exact ⟨I.binop o va vb, by rw [evalExpr, hb, ha]; rfl⟩
  | ufn f e ih =>
    rw [var_dict]
    rw [← ih]
    constructor
    · rintro ⟨v, hv⟩
      rw [evalExpr] at hv
      cases he : evalExpr I deps e with
      | error m => rw [he] at hv; exact Except.noConfusion hv
      | ok w => exact ⟨w, rfl⟩
    · rintro ⟨w, hw⟩
      exact ⟨I.ufn f w, by rw [evalExpr, hw]; rfl⟩
  | bfn m a b iha ihb =>
    rw [var_dict]
    constructor
    · rintro ⟨v, hv⟩ s hs
      rw [evalExpr] at hv
      cases hb : evalExpr I deps b with
      | error m2 => rw [hb] at hv; exact Except.noConfusion hv
      | ok vb =>
        cases ha : evalExpr I deps a with
        | error m2 => rw [hb, ha] at hv; exact Except.noConfusion hv
        | ok va =>
          rcases List.mem_append.mp hs with h | h
          · exact (iha.mp ⟨va, ha⟩) s h
          · exact (ihb.mp ⟨vb, hb⟩) s h
    · intro h
      obtain ⟨vb, hb⟩ := ihb.mpr (fun s hs => h s (List.mem_append.mpr (Or.inr hs)))
      obtain ⟨va, ha⟩ := iha.mpr (fun s hs => h s (List.mem_append.mpr (Or.inl hs)))
      exact ⟨if m then min va vb else max va vb, by rw [evalExpr, hb, ha]; rfl⟩

/-! ## Theorems for claim C8 -/

/-- Claim C8: the parser yields a postfix token stack and the referenced identifier
list; when every referenced identifier is bound in the dependency map, evaluating
the produced stack succeeds (consuming the stack exactly and computing the
expression value), and whenever some referenced identifier is missing from the
dependency map, evaluation fails with the unbound-identifier error. -/
theorem function_parser_spec (I : OpInterp) (deps : String → Option ℚ) (e : Expr)
    (fuel : ℕ) (hfuel : (produce_stack e).length ≤ fuel) :
    ((∀ s ∈ var_dict e, (deps s).isSome) →
      ∃ v, evalExpr I deps e = Except.ok v ∧
        evaluate_stack I deps fuel (produce_stack e) = Except.ok (v, [])) ∧
    ((∃ s ∈ var_dict e, deps s = none) →
      ∃ m, evaluate_stack I deps fuel (produce_stack e) = Except.error m) := by
  have hkey : evaluate_stack I deps fuel (produce_stack e) =
      (evalExpr I deps e).map (fun v => (v, [])) := by
    have := evaluate_stack_produce I deps e fuel [] hfuel
    simpa using this
  constructor
  · intro h
    obtain ⟨v, hv⟩ := (evalExpr_ok_iff I deps e).mpr h
    exact ⟨v, hv, by rw [hkey, hv]; rfl⟩
  · rintro ⟨s, hs, hnone⟩
    cases he : evalExpr I deps e with
    | error m => exact ⟨m, by rw [hkey, he]; rfl⟩
    | ok v =>
      exfalso
      have := (evalExpr_ok_iff I deps e).mp ⟨v, he⟩ s hs
      rw [hnone] at this
      exact absurd this (by simp)

/-- Witness for C8: the expression x + 2 with x missing from the dependency map
fails, and succeeds with x bound to 5. -/
theorem function_parser_spec_witness :
    ((produce_stack (Expr.binop BinOp.add (Expr.var "x") (Expr.num 2))).length ≤ 3) ∧
    (∃ m, evaluate_stack ⟨fun _ a b => a + b, fun _ v => v⟩ (fun _ => none) 3
      (produce_stack (Expr.binop BinOp.add (Expr.var "x") (Expr.num 2)))
      = Except.error m) := by
  refine ⟨by simp [produce_stack], ?_⟩
  refine (function_parser_spec ⟨fun _ a b => a + b, fun _ v => v⟩ (fun _ => none)
    (Expr.binop BinOp.add (Expr.var "x") (Expr.num 2)) 3 (by simp [produce_stack])).2 ?_
  exact ⟨"x", by simp [var_dict], rfl⟩

/-! ## Parameter.set_fcn and Parameter.set_dynamic (model.py lines 982-1073)

A parameter is described by the flags read by these two methods: whether it has a
function, whether the function is a pop-aggregation (`pop_aggregation` set by
`set_fcn`), the derivative flag, the framework timed flag, whether it drives any
links, whether the progset overwrites it, and its dependency objects (compartments,
characteristics, or other parameters, referenced by index). `set_fcn` calls
`set_dynamic(progset)` when the parameter has links, is a derivative, or is timed;
`set_dynamic` recursively descends into parameter dependencies, but the recursive
calls pass no progset, so the program-overwrite test applies only to the direct
dependencies of the frame that received the progset. State is the pair of flag
maps `_is_dynamic` and `_precompute` over parameter indices. The recursion is
fuel-bounded; any fuel above the largest parameter index reached is exact because
dependencies always point to earlier parameters (framework declaration order). -/

/-- A dependency entry of a parameter: a compartment, a characteristic, or another
parameter (by index). -/
inductive Dep
  | comp
  | charac
  | par (j : ℕ)
deriving DecidableEq, Repr

/-- The attributes of one Parameter object read by `set_fcn` / `set_dynamic`. -/
structure ParSpec where
  hasFcn : Bool
  popAgg : Bool
  derivative : Bool
  timed : Bool
  links : Bool
  overwritten : Bool
  deps : List Dep

/-- The `_is_dynamic` and `_precompute` flags of every parameter. -/
structure DynState where
  dyn : ℕ → Bool
  pre : ℕ → Bool

/-- The all-false initial flag state (flags at construction time). -/
def initDynState : DynState := ⟨fun _ => false, fun _ => false⟩

/-- Set `_is_dynamic` of parameter `i`. -/
def setDynFlag (st : DynState) (i : ℕ) : DynState :=
  ⟨Function.update st.dyn i true, st.pre⟩

/-- Set `_precompute` of parameter `i`. -/
def setPreFlag (st : DynState) (i : ℕ) : DynState :=
  ⟨st.dyn, Function.update st.pre i true⟩

/-- Translation of `Parameter.set_dynamic(progset)` for parameter `i`: return
unchanged when there is no function or the parameter is already marked dynamic or
precompute; otherwise mark dynamic if it is a pop-aggregation or derivative, fold
over the dependencies (a compartment or characteristic dependency marks `i`
dynamic; a parameter dependency `j` is recursively processed with no progset and
then `i` is marked dynamic if `j` ended up dynamic or, when this frame has the
progset, `j` is overwritten by a program), and finally mark precompute when not
dynamic. -/
def set_dynamic (w : ℕ → ParSpec) (fuel : ℕ) (hasProgset : Bool) (i : ℕ)
    (st : DynState) : DynState :=
  match fuel with
  | 0 => st
  | fuel + 1 =>
    if !(w i).hasFcn || st.dyn i || st.pre i then st
    else
      let st1 := if (w i).popAgg || (w i).derivative then setDynFlag st i else st
      let st2 := (w i).deps.foldl (fun s d =>
        match d with
        | Dep.comp => setDynFlag s i
        | Dep.charac => setDynFlag s i
        | Dep.par j =>
          let s1 := set_dynamic w fuel false j s
          if s1.dyn j || (hasProgset && (w j).overwritten) then setDynFlag s1 i
          else s1) st1
      if st2.dyn i then st2 else setPreFlag st2 i
termination_by fuel

/-- The dependency-fold step of `set_dynamic`, named so the fold can be reasoned
about; definitionally the lambda inside `set_dynamic`. -/
def depStep (w : ℕ → ParSpec) (fuel : ℕ) (hasProgset : Bool) (i : ℕ)
    (s : DynState) : Dep → DynState
  | Dep.comp => setDynFlag s i
  | Dep.charac => setDynFlag s i
  | Dep.par j =>
    let s1 := set_dynamic w fuel false j s
    if s1.dyn j || (hasProgset && (w j).overwritten) then setDynFlag s1 i
    else s1

/-- Translation of the trigger at the end of `Parameter.set_fcn`: `set_dynamic` is
invoked exactly when the parameter has links, is a derivative, or is timed. -/
def set_fcn (w : ℕ → ParSpec) (hasProgset : Bool) (fuel i : ℕ) (st : DynState) :
    DynState :=
  if (w i).links || (w i).derivative || (w i).timed then
    set_dynamic w fuel hasProgset i st
  else st

/-- Dependencies reference only parameters declared earlier (framework declaration
order, under which the population builder instantiates parameters before wiring
functions). -/
def Downward (w : ℕ → ParSpec) : Prop :=
  ∀ i j : ℕ, Dep.par j ∈ (w i).deps → j < i

/-- The condition under which `set_fcn` invokes `set_dynamic`: the parameter has
links, is a derivative, or its framework timed column is y. -/
def trigger (w : ℕ → ParSpec) (i : ℕ) : Bool :=
  (w i).links || (w i).derivative || (w i).timed

/-- The fuel-indexed characterization of the condition under which `set_dynamic`
marks a parameter dynamic in the declaration-order build pass. `hp` is the
progset flag of the build; `h` is the progset flag of the current frame. The
parameter needs dynamic evaluation iff it is a pop-aggregation or derivative, or
some dependency is a compartment or characteristic, or a dependency parameter
with a function satisfies this condition in the frame in which its flags were
first written — its own `set_fcn` frame (progset `hp`) for a triggered parameter,
which was processed earlier in declaration order, and a recursive progset-less
frame for an untriggered one — or the current frame holds the progset and the
dependency parameter is program-overwritten. -/
def needs_live (w : ℕ → ParSpec) (hp : Bool) : ℕ → Bool → ℕ → Bool
  | 0 => fun _ _ => false
  | fuel + 1 => fun h i =>
    (w i).popAgg || (w i).derivative ||
    (w i).deps.any (fun d =>
      match d with
      | Dep.comp => true
      | Dep.charac => true
      | Dep.par j => ((w j).hasFcn && needs_live w hp fuel (hp && trigger w j) j) ||
          (h && (w j).overwritten))

/-- The stable (fuel above index) live dynamic condition of parameter `i`, taken
in the frame in which its flags are first written during the build pass. -/
def needsL (w : ℕ → ParSpec) (hp : Bool) (i : ℕ) : Bool :=
  needs_live w hp (i + 1) (hp && trigger w i) i

/-- What one dependency entry contributes to the dynamic condition of the
parameter whose frame carries progset flag `h`, in a build with progset flag
`hp`. -/
def justifL (w : ℕ → ParSpec) (hp h : Bool) : Dep → Bool
  | Dep.comp => true
  | Dep.charac => true
  | Dep.par j => ((w j).hasFcn && needsL w hp j) || (h && (w j).overwritten)

/-- Threaded flag-state correctness for parameter `k` during the declaration-order
build pass with progset flag `hp`: a triggered parameter with a function already
holds its final flags (its own `set_fcn` ran earlier); an untriggered parameter
with a function either holds its live flags (it was reached as a dependency) or
is still unmarked; a parameter without a function is unmarked. -/
def MCL (w : ℕ → ParSpec) (hp : Bool) (k : ℕ) (st : DynState) : Prop :=
  (((w k).hasFcn = true ∧ trigger w k = true) →
    (st.dyn k = needsL w hp k ∧ st.pre k = !needsL w hp k)) ∧
  (((w k).hasFcn = true ∧ trigger w k = false) →
    ((st.dyn k = needsL w hp k ∧ st.pre k = !needsL w hp k) ∨
     (st.dyn k = false ∧ st.pre k = false))) ∧
  ((w k).hasFcn = false → (st.dyn k = false ∧ st.pre k = false))

theorem setDynFlag_dyn (st : DynState) (i k : ℕ) :
    (setDynFlag st i).dyn k = if k = i then true else st.dyn k := by
  simp [setDynFlag, Function.update_apply]

theorem setDynFlag_pre (st : DynState) (i k : ℕ) :
    (setDynFlag st i).pre k = st.pre k := rfl

theorem setPreFlag_dyn (st : DynState) (i k : ℕ) :
    (setPreFlag st i).dyn k = st.dyn k := rfl

theorem setPreFlag_pre (st : DynState) (i k : ℕ) :
    (setPreFlag st i).pre k = if k = i then true else st.pre k := by
  simp [setPreFlag, Function.update_apply]

theorem list_any_congr_mem {α : Type} (l : List α) (f g : α → Bool)
    (h : ∀ a ∈ l, f a = g a) : l.any f = l.any g := by
  induction l with
  | nil => rfl
  | cons x xs ih =>
    rw [List.any_cons, List.any_cons, h x (List.mem_cons_self x xs),
      ih (fun a ha => h a (List.mem_cons_of_mem x ha))]

theorem set_dynamic_zero (w : ℕ → ParSpec) (hasProgset : Bool) (i : ℕ)
    (st : DynState) : set_dynamic w 0 hasProgset i st = st := by
  rw [set_dynamic]

theorem set_dynamic_succ (w : ℕ → ParSpec) (fuel : ℕ) (hasProgset : Bool) (i : ℕ)
    (st : DynState) :
    set_dynamic w (fuel + 1) hasProgset i st =
      if !(w i).hasFcn || st.dyn i || st.pre i then st
      else
        if ((w i).deps.foldl (depStep w fuel hasProgset i)
            (if (w i).popAgg || (w i).derivative then setDynFlag st i else st)).dyn i
        then (w i).deps.foldl (depStep w fuel hasProgset i)
            (if (w i).popAgg || (w i).derivative then setDynFlag st i else st)
        else setPreFlag ((w i).deps.foldl (depStep w fuel hasProgset i)
            (if (w i).popAgg || (w i).derivative then setDynFlag st i else st)) i := by
  rw [set_dynamic]
  by_cases hguard : (!(w i).hasFcn || st.dyn i || st.pre i) = true
  · rw [if_pos hguard, if_pos hguard]
  · rw [if_neg hguard, if_neg hguard]
    have hstep : (fun (s : DynState) (d : Dep) =>
        match d with
        | Dep.comp => setDynFlag s i
        | Dep.charac => setDynFlag s i
        | Dep.par j =>
          let s1 := set_dynamic w fuel false j s
          if s1.dyn j || (hasProgset && (w j).overwritten) then setDynFlag s1 i
          else s1) = depStep w fuel hasProgset i := by
      funext s d
      cases d <;> rfl
    rw [hstep]

theorem needs_live_succ (w : ℕ → ParSpec) (hp : Bool) (fuel : ℕ) (h : Bool) (i : ℕ) :
    needs_live w hp (fuel + 1) h i =
      ((w i).popAgg || (w i).derivative ||
       (w i).deps.any (fun d =>
         match d with
         | Dep.comp => true
         | Dep.charac => true
         | Dep.par j => ((w j).hasFcn && needs_live w hp fuel (hp && trigger w j) j) ||
             (h && (w j).overwritten))) := rfl

theorem needs_live_stable (w : ℕ → ParSpec) (hDown : Downward w) (hp : Bool) :
    ∀ (f1 f2 i : ℕ) (h : Bool), i < f1 → i < f2 →
      needs_live w hp f1 h i = needs_live w hp f2 h i := by
  intro f1
  induction f1 with
  | zero => intro f2 i h h1 _; exact absurd h1 (Nat.not_lt_zero i)
  | succ f1 ih =>
    intro f2 i h h1 h2
    cases f2 with
    | zero => exact absurd h2 (Nat.not_lt_zero i)
    | succ f2 =>
      rw [needs_live_succ, needs_live_succ]
      congr 1
      apply list_any_congr_mem
      intro d hd
      cases d with
      | comp => rfl
      | charac => rfl
      | par j =>
        have hj : j < i := hDown i j hd
        have e : needs_live w hp f1 (hp && trigger w j) j
            = needs_live w hp f2 (hp && trigger w j) j :=
          ih f2 j (hp && trigger w j) (by omega) (by omega)
        show (((w j).hasFcn && needs_live w hp f1 (hp && trigger w j) j) ||
            (h && (w j).overwritten))
          = (((w j).hasFcn && needs_live w hp f2 (hp && trigger w j) j) ||
            (h && (w j).overwritten))
        rw [e]

theorem needsL_unfold (w : ℕ → ParSpec) (hDown : Downward w) (hp h : Bool) (i : ℕ) :
    needs_live w hp (i + 1) h i =
      ((w i).popAgg || (w i).derivative || (w i).deps.any (justifL w hp h)) := by
  rw [needs_live_succ]
  congr 1
  apply list_any_congr_mem
  intro d hd
  cases d with
  | comp => rfl
  | charac => rfl
  | par j =>
    have hj : j < i := hDown i j hd
    show (((w j).hasFcn && needs_live w hp i (hp && trigger w j) j) ||
        (h && (w j).overwritten))
      = justifL w hp h (Dep.par j)
    rw [needs_live_stable w hDown hp i (j + 1) j (hp && trigger w j) hj
      (Nat.lt_succ_self j)]
    rfl

theorem set_dynamic_frame (w : ℕ → ParSpec) (hDown : Downward w) :
    ∀ (fuel : ℕ) (hp : Bool) (i : ℕ) (st : DynState) (k : ℕ), i < k →
      (set_dynamic w fuel hp i st).dyn k = st.dyn k ∧
      (set_dynamic w fuel hp i st).pre k = st.pre k := by
  intro fuel
  induction fuel with
  | zero =>
    intro hp i st k _
    rw [set_dynamic_zero]
    exact ⟨rfl, rfl⟩
  | succ fuel ih =>
    intro hp i st k hik
    rw [set_dynamic_succ]
    by_cases hguard : (!(w i).hasFcn || st.dyn i || st.pre i) = true
    · rw [if_pos hguard]
      exact ⟨rfl, rfl⟩
    · rw [if_neg hguard]
      have hne : k ≠ i := Nat.ne_of_gt hik
      have hfold : ∀ (ds : List Dep) (s : DynState), (∀ j, Dep.par j ∈ ds → j < i) →
          (ds.foldl (depStep w fuel hp i) s).dyn k = s.dyn k ∧
          (ds.foldl (depStep w fuel hp i) s).pre k = s.pre k := by
        intro ds
        induction ds with
        | nil => intro s _; exact ⟨rfl, rfl⟩
        | cons d rest ihd =>
          intro s hds
          rw [List.foldl_cons]
          have hstep : (depStep w fuel hp i s d).dyn k = s.dyn k ∧
              (depStep w fuel hp i s d).pre k = s.pre k := by
            cases d with
            | comp =>
              refine ⟨?_, rfl⟩
              rw [show depStep w fuel hp i s Dep.comp = setDynFlag s i from rfl,
                setDynFlag_dyn, if_neg hne]
            | charac =>
              refine ⟨?_, rfl⟩
              rw [show depStep w fuel hp i s Dep.charac = setDynFlag s i from rfl,
                setDynFlag_dyn, if_neg hne]
            | par j =>
              have hrec := ih false j s k (by have := hds j (List.mem_cons_self _ _); omega)
              have hd2 : depStep w fuel hp i s (Dep.par j) =
                  (if (set_dynamic w fuel false j s).dyn j || (hp && (w j).overwritten)
                    then setDynFlag (set_dynamic w fuel false j s) i
                    else set_dynamic w fuel false j s) := rfl
              rw [hd2]
              by_cases hcond : ((set_dynamic w fuel false j s).dyn j ||
                  (hp && (w j).overwritten)) = true
              · rw [if_pos hcond]
                refine ⟨?_, ?_⟩
                · rw [setDynFlag_dyn, if_neg hne]
                  exact hrec.1
                · rw [setDynFlag_pre]
                  exact hrec.2
              · rw [if_neg hcond]
                exact hrec
          have hrest := ihd (depStep w fuel hp i s d)
            (fun j hj => hds j (List.mem_cons_of_mem d hj))
          exact ⟨hrest.1.trans hstep.1, hrest.2.trans hstep.2⟩
      have hst1dyn : (if (w i).popAgg || (w i).derivative then setDynFlag st i else st).dyn k
          = st.dyn k := by
        by_cases hpa : ((w i).popAgg || (w i).derivative) = true
        · rw [if_pos hpa, setDynFlag_dyn, if_neg hne]
        · rw [if_neg hpa]
      have hst1pre : (if (w i).popAgg || (w i).derivative then setDynFlag st i else st).pre k
          = st.pre k := by
        by_cases hpa : ((w i).popAgg || (w i).derivative) = true
        · rw [if_pos hpa, setDynFlag_pre]
        · rw [if_neg hpa]
      have h2 := hfold (w i).deps
        (if (w i).popAgg || (w i).derivative then setDynFlag st i else st)
        (fun j hj => hDown i j hj)
      by_cases hfin : ((w i).deps.foldl (depStep w fuel hp i)
          (if (w i).popAgg || (w i).derivative then setDynFlag st i else st)).dyn i = true
      · rw [if_pos hfin]
        exact ⟨h2.1.trans hst1dyn, h2.2.trans hst1pre⟩
      · rw [if_neg hfin]
        refine ⟨?_, ?_⟩
        · rw [setPreFlag_dyn]
          exact h2.1.trans hst1dyn
        · rw [setPreFlag_pre, if_neg hne]
          exact h2.2.trans hst1pre

theorem set_dynamic_of_marked (w : ℕ → ParSpec) (fuel : ℕ) (h : Bool) (i : ℕ)
    (st : DynState) (hm : (st.dyn i || st.pre i) = true) :
    set_dynamic w fuel h i st = st := by
  cases fuel with
  | zero => exact set_dynamic_zero w h i st
  | succ fuel =>
    rw [set_dynamic_succ]
    have hg : (!(w i).hasFcn || st.dyn i || st.pre i) = true := by
      rcases Bool.or_eq_true_iff.mp hm with h1 | h1
      · rw [h1]
        simp
      · rw [h1]
        simp
    rw [if_pos hg]

theorem set_dynamic_of_noFcn (w : ℕ → ParSpec) (fuel : ℕ) (h : Bool) (i : ℕ)
    (st : DynState) (hf : (w i).hasFcn = false) :
    set_dynamic w fuel h i st = st := by
  cases fuel with
  | zero => exact set_dynamic_zero w h i st
  | succ fuel =>
    rw [set_dynamic_succ]
    have hg : (!(w i).hasFcn || st.dyn i || st.pre i) = true := by
      rw [hf]
      simp
    rw [if_pos hg]

theorem MCL_of_eq (w : ℕ → ParSpec) (hp : Bool) (k : ℕ) (s1 s2 : DynState)
    (h1 : s2.dyn k = s1.dyn k) (h2 : s2.pre k = s1.pre k) (hmc : MCL w hp k s1) :
    MCL w hp k s2 := by
  unfold MCL
  rw [h1, h2]
  exact hmc

theorem MCL_setDynFlag_other (w : ℕ → ParSpec) (hp : Bool) (k i : ℕ) (s : DynState)
    (hk : k ≠ i) (hmc : MCL w hp k s) : MCL w hp k (setDynFlag s i) :=
  MCL_of_eq w hp k s (setDynFlag s i)
    (by rw [setDynFlag_dyn, if_neg hk]) (setDynFlag_pre s i k) hmc

theorem MCL_setPreFlag_other (w : ℕ → ParSpec) (hp : Bool) (k i : ℕ) (s : DynState)
    (hk : k ≠ i) (hmc : MCL w hp k s) : MCL w hp k (setPreFlag s i) :=
  MCL_of_eq w hp k s (setPreFlag s i)
    (setPreFlag_dyn s i k) (by rw [setPreFlag_pre, if_neg hk]) hmc

theorem set_dynamic_live_correct (w : ℕ → ParSpec) (hDown : Downward w) (hp : Bool) :
    ∀ (fuel : ℕ) (h : Bool) (i : ℕ) (st : DynState), i < fuel →
      (∀ k, k < i → MCL w hp k st) →
      st.dyn i = false → st.pre i = false →
      ((w i).hasFcn = true → h = (hp && trigger w i)) →
      (∀ k, k < i → MCL w hp k (set_dynamic w fuel h i st)) ∧
      (set_dynamic w fuel h i st).dyn i = ((w i).hasFcn && needsL w hp i) ∧
      (set_dynamic w fuel h i st).pre i = ((w i).hasFcn && !(needsL w hp i)) := by
  intro fuel
  induction fuel with
  | zero => intro h i st hif; exact absurd hif (Nat.not_lt_zero i)
  | succ fuel ih =>
    intro h i st hif hbelow hd0 hp0 hframe
    by_cases hfcn : (w i).hasFcn = true
    · have hfr : h = (hp && trigger w i) := hframe hfcn
      rw [set_dynamic_succ]
      have hg : (!(w i).hasFcn || st.dyn i || st.pre i) = false := by
        rw [hfcn, hd0, hp0]
        rfl
      rw [if_neg (by rw [hg]; exact Bool.false_ne_true)]
      have hAdyn : (if (w i).popAgg || (w i).derivative then setDynFlag st i else st).dyn i
          = ((w i).popAgg || (w i).derivative) := by
        by_cases hpa : ((w i).popAgg || (w i).derivative) = true
        · rw [if_pos hpa, setDynFlag_dyn, if_pos rfl, hpa]
        · rw [if_neg hpa, hd0]
          cases hh : ((w i).popAgg || (w i).derivative) with
          | false => rfl
          | true => exact absurd hh hpa
      have hApre : (if (w i).popAgg || (w i).derivative then setDynFlag st i else st).pre i
          = false := by
        by_cases hpa : ((w i).popAgg || (w i).derivative) = true
        · rw [if_pos hpa, setDynFlag_pre, hp0]
        · rw [if_neg hpa, hp0]
      have hAbelow : ∀ k, k < i →
          MCL w hp k (if (w i).popAgg || (w i).derivative then setDynFlag st i else st) := by
        intro k hk
        by_cases hpa : ((w i).popAgg || (w i).derivative) = true
        · rw [if_pos hpa]
          exact MCL_setDynFlag_other w hp k i st (Nat.ne_of_lt hk) (hbelow k hk)
        · rw [if_neg hpa]
          exact hbelow k hk
      have hfold : ∀ (ds : List Dep), (∀ j, Dep.par j ∈ ds → j < i) →
          ∀ s : DynState, (∀ k, k < i → MCL w hp k s) → s.pre i = false →
          (∀ k, k < i → MCL w hp k (ds.foldl (depStep w fuel h i) s)) ∧
          (ds.foldl (depStep w fuel h i) s).pre i = false ∧
          (ds.foldl (depStep w fuel h i) s).dyn i
            = (s.dyn i || ds.any (justifL w hp h)) := by
        intro ds
        induction ds with
        | nil =>
          intro _ s hbel hpre
          refine ⟨hbel, hpre, by rw [List.foldl_nil, List.any_nil, Bool.or_false]⟩
        | cons d rest ihd =>
          intro hds s hbel hpre
          rw [List.foldl_cons, List.any_cons]
          cases d with
          | comp =>
            rw [show depStep w fuel h i s Dep.comp = setDynFlag s i from rfl]
            have h1 := ihd (fun j hj => hds j (List.mem_cons_of_mem _ hj)) (setDynFlag s i)
              (fun k hk => MCL_setDynFlag_other w hp k i s (Nat.ne_of_lt hk) (hbel k hk))
              (by rw [setDynFlag_pre]; exact hpre)
            refine ⟨h1.1, h1.2.1, ?_⟩
            rw [h1.2.2, setDynFlag_dyn, if_pos rfl]
            simp [justifL]
          | charac =>
            rw [show depStep w fuel h i s Dep.charac = setDynFlag s i from rfl]
            have h1 := ihd (fun j hj => hds j (List.mem_cons_of_mem _ hj)) (setDynFlag s i)
              (fun k hk => MCL_setDynFlag_other w hp k i s (Nat.ne_of_lt hk) (hbel k hk))
              (by rw [setDynFlag_pre]; exact hpre)
            refine ⟨h1.1, h1.2.1, ?_⟩
            rw [h1.2.2, setDynFlag_dyn, if_pos rfl]
            simp [justifL]
          | par j =>
            have hj : j < i := hds j (List.mem_cons_self _ _)
            have hmcj := hbel j hj
            have hd2 : depStep w fuel h i s (Dep.par j) =
                (if (set_dynamic w fuel false j s).dyn j || (h && (w j).overwritten)
                  then setDynFlag (set_dynamic w fuel false j s) i
                  else set_dynamic w fuel false j s) := rfl
            rw [hd2]
            have hK : (∀ k, k < i → MCL w hp k (set_dynamic w fuel false j s)) ∧
                (set_dynamic w fuel false j s).dyn j = ((w j).hasFcn && needsL w hp j) ∧
                (set_dynamic w fuel false j s).dyn i = s.dyn i ∧
                (set_dynamic w fuel false j s).pre i = s.pre i := by
              by_cases hfj : (w j).hasFcn = true
              · by_cases htj : trigger w j = true
                · obtain ⟨hdj, hpj⟩ := hmcj.1 ⟨hfj, htj⟩
                  have hmk : (s.dyn j || s.pre j) = true := by
                    rw [hdj, hpj, Bool.or_not_self]
                  rw [set_dynamic_of_marked w fuel false j s hmk]
                  exact ⟨hbel, by rw [hdj, hfj, Bool.true_and], rfl, rfl⟩
                · have htj2 : trigger w j = false := by
                    cases hh : trigger w j with
                    | false => rfl
                    | true => exact absurd hh htj
                  rcases hmcj.2.1 ⟨hfj, htj2⟩ with ⟨hdj, hpj⟩ | ⟨hdj, hpj⟩
                  · have hmk : (s.dyn j || s.pre j) = true := by
                      rw [hdj, hpj, Bool.or_not_self]
                    rw [set_dynamic_of_marked w fuel false j s hmk]
                    exact ⟨hbel, by rw [hdj, hfj, Bool.true_and], rfl, rfl⟩
                  · have hrec := ih false j s (by omega)
                      (fun k hk => hbel k (by omega)) hdj hpj
                      (fun _ => by rw [htj2, Bool.and_false])
                    have hframe2 := set_dynamic_frame w hDown fuel false j s
                    obtain ⟨hdi, hpi⟩ := hframe2 i hj
                    refine ⟨?_, ?_, hdi, hpi⟩
                    · intro k hk
                      rcases Nat.lt_trichotomy k j with hkj | rfl | hkj
                      · exact hrec.1 k hkj
                      · refine ⟨?_, ?_, ?_⟩
                        · rintro ⟨_, ht⟩
                          rw [htj2] at ht
                          exact absurd ht Bool.false_ne_true
                        · intro _
                          left
                          exact ⟨by rw [hrec.2.1, hfj, Bool.true_and],
                            by rw [hrec.2.2, hfj, Bool.true_and]⟩
                        · intro hh
                          rw [hh] at hfj
                          exact absurd hfj Bool.false_ne_true
                      · obtain ⟨hdk, hpk⟩ := hframe2 k hkj
                        exact MCL_of_eq w hp k s _ hdk hpk (hbel k hk)
                    · rw [hrec.2.1]
              · have hfj2 : (w j).hasFcn = false := by
                  cases hh : (w j).hasFcn with
                  | false => rfl
                  | true => exact absurd hh hfj
                rw [set_dynamic_of_noFcn w fuel false j s hfj2]
                have hun := hmcj.2.2 hfj2
                exact ⟨hbel, by rw [hun.1, hfj2, Bool.false_and], rfl, rfl⟩
            have hcond : ((set_dynamic w fuel false j s).dyn j ||
                (h && (w j).overwritten)) = justifL w hp h (Dep.par j) := by
              rw [hK.2.1]
              rfl
            by_cases hc : ((set_dynamic w fuel false j s).dyn j ||
                (h && (w j).overwritten)) = true
            · rw [if_pos hc]
              have h1 := ihd (fun j2 hj2 => hds j2 (List.mem_cons_of_mem _ hj2))
                (setDynFlag (set_dynamic w fuel false j s) i)
                (fun k hk => MCL_setDynFlag_other w hp k i _ (Nat.ne_of_lt hk)
                  (hK.1 k hk))
                (by rw [setDynFlag_pre, hK.2.2.2]; exact hpre)
              refine ⟨h1.1, h1.2.1, ?_⟩
              rw [h1.2.2, setDynFlag_dyn, if_pos rfl, ← hcond, hc]
              simp
            · rw [if_neg hc]
              have hcf : ((set_dynamic w fuel false j s).dyn j ||
                  (h && (w j).overwritten)) = false := by
                cases hh : ((set_dynamic w fuel false j s).dyn j ||
                    (h && (w j).overwritten)) with
                | false => rfl
                | true => exact absurd hh hc
              have h1 := ihd (fun j2 hj2 => hds j2 (List.mem_cons_of_mem _ hj2))
                (set_dynamic w fuel false j s) hK.1 (by rw [hK.2.2.2]; exact hpre)
              refine ⟨h1.1, h1.2.1, ?_⟩
              rw [h1.2.2, hK.2.2.1, ← hcond, hcf]
              simp
      have h2 := hfold (w i).deps (fun j hj => hDown i j hj)
        (if (w i).popAgg || (w i).derivative then setDynFlag st i else st)
        hAbelow hApre
      have hdyn2 : ((w i).deps.foldl (depStep w fuel h i)
          (if (w i).popAgg || (w i).derivative then setDynFlag st i else st)).dyn i
          = needsL w hp i := by
        rw [h2.2.2, hAdyn, ← needsL_unfold w hDown hp h i, hfr]
        rfl
      by_cases hfin : ((w i).deps.foldl (depStep w fuel h i)
          (if (w i).popAgg || (w i).derivative then setDynFlag st i else st)).dyn i = true
      · rw [if_pos hfin]
        refine ⟨h2.1, ?_, ?_⟩
        · rw [hfin, hfcn, ← hdyn2, hfin]
          rfl
        · rw [h2.2.1, hfcn, ← hdyn2, hfin]
          rfl
      · rw [if_neg hfin]
        have hfin2 : ((w i).deps.foldl (depStep w fuel h i)
            (if (w i).popAgg || (w i).derivative then setDynFlag st i else st)).dyn i
            = false := by
          cases hh : ((w i).deps.foldl (depStep w fuel h i)
              (if (w i).popAgg || (w i).derivative then setDynFlag st i else st)).dyn i with
          | false => rfl
          | true => exact absurd hh hfin
        refine ⟨?_, ?_, ?_⟩
        · intro k hk
          exact MCL_setPreFlag_other w hp k i _ (Nat.ne_of_lt hk) (h2.1 k hk)
        · rw [setPreFlag_dyn, hfin2, hfcn, ← hdyn2, hfin2]
          rfl
        · rw [setPreFlag_pre, if_pos rfl, hfcn, ← hdyn2, hfin2]
          rfl
    · have hfcn2 : (w i).hasFcn = false := by
        cases hh : (w i).hasFcn with
        | false => rfl
        | true => exact absurd hh hfcn
      rw [set_dynamic_of_noFcn w (fuel + 1) h i st hfcn2]
      refine ⟨hbelow, ?_, ?_⟩
      · rw [hd0, hfcn2, Bool.false_and]
      · rw [hp0, hfcn2, Bool.false_and]

/-- Translation of the third pass of `Population.build` (model.py lines 1690-1705):
process parameters in framework declaration order, and for each parameter with a
function call `set_fcn` (which invokes `set_dynamic` with the progset when the
parameter has links, is a derivative, or is timed), threading the flag state from
one parameter to the next. -/
def build_pass (w : ℕ → ParSpec) (hp : Bool) : ℕ → DynState → DynState
  | 0, st => st
  | n + 1, st =>
    let st1 := build_pass w hp n st
    if (w n).hasFcn then set_fcn w hp (n + 1) n st1 else st1

theorem build_pass_invariant (w : ℕ → ParSpec) (hDown : Downward w) (hp : Bool) :
    ∀ n : ℕ,
      (∀ k, k < n → MCL w hp k (build_pass w hp n initDynState)) ∧
      (∀ k, n ≤ k → (build_pass w hp n initDynState).dyn k = false ∧
        (build_pass w hp n initDynState).pre k = false) := by
  intro n
  induction n with
  | zero =>
    exact ⟨fun k hk => absurd hk (Nat.not_lt_zero k), fun k _ => ⟨rfl, rfl⟩⟩
  | succ n ih =>
    have hbp : build_pass w hp (n + 1) initDynState =
        (if (w n).hasFcn then set_fcn w hp (n + 1) n (build_pass w hp n initDynState)
         else build_pass w hp n initDynState) := rfl
    rw [hbp]
    by_cases hfcn : (w n).hasFcn = true
    · rw [if_pos hfcn]
      unfold set_fcn
      by_cases htr : ((w n).links || (w n).derivative || (w n).timed) = true
      · rw [if_pos htr]
        have htrig : trigger w n = true := htr
        have hcorr := set_dynamic_live_correct w hDown hp (n + 1) hp n
          (build_pass w hp n initDynState) (Nat.lt_succ_self n) ih.1
          (ih.2 n le_rfl).1 (ih.2 n le_rfl).2
          (fun _ => by rw [htrig, Bool.and_true])
        have hframe := set_dynamic_frame w hDown (n + 1) hp n
          (build_pass w hp n initDynState)
        constructor
        · intro k hk
          rcases Nat.lt_or_ge k n with hkn | hkn
          · exact hcorr.1 k hkn
          · have hkeq : k = n := by omega
            subst hkeq
            refine ⟨?_, ?_, ?_⟩
            · intro _
              exact ⟨by rw [hcorr.2.1, hfcn, Bool.true_and],
                by rw [hcorr.2.2, hfcn, Bool.true_and]⟩
            · rintro ⟨_, ht⟩
              rw [htrig] at ht
              exact absurd ht.symm Bool.false_ne_true
            · intro hh
              rw [hh] at hfcn
              exact absurd hfcn Bool.false_ne_true
        · intro k hk
          obtain ⟨hdk, hpk⟩ := hframe k (by omega)
          obtain ⟨h1, h2⟩ := ih.2 k (by omega)
          exact ⟨by rw [hdk, h1], by rw [hpk, h2]⟩
      · rw [if_neg htr]
        have htrig : trigger w n = false := by
          cases hh : trigger w n with
          | false => rfl
          | true => exact absurd hh htr
        constructor
        · intro k hk
          rcases Nat.lt_or_ge k n with hkn | hkn
          · exact ih.1 k hkn
          · have hkeq : k = n := by omega
            subst hkeq
            refine ⟨?_, ?_, ?_⟩
            · rintro ⟨_, ht⟩
              rw [htrig] at ht
              exact absurd ht Bool.false_ne_true
            · intro _
              right
              exact ih.2 k le_rfl
            · intro hh
              rw [hh] at hfcn
              exact absurd hfcn Bool.false_ne_true
        · intro k hk
          exact ih.2 k (by omega)
    · rw [if_neg hfcn]
      have hfcn2 : (w n).hasFcn = false := by
        cases hh : (w n).hasFcn with
        | false => rfl
        | true => exact absurd hh hfcn
      constructor
      · intro k hk
        rcases Nat.lt_or_ge k n with hkn | hkn
        · exact ih.1 k hkn
        · have hkeq : k = n := by omega
          subst hkeq
          refine ⟨?_, ?_, ?_⟩
          · rintro ⟨hf, _⟩
            rw [hfcn2] at hf
            exact absurd hf Bool.false_ne_true
          · rintro ⟨hf, _⟩
            rw [hfcn2] at hf
            exact absurd hf Bool.false_ne_true
          · intro _
            exact ih.2 k le_rfl
      · intro k hk
        exact ih.2 k (by omega)

/-! ## Theorems for claim C6 -/

/-- Claim C6 (amended): the build pass runs `set_fcn` over parameters in
declaration order, threading the dynamic and precompute flags. A parameter with a
function has `set_dynamic` invoked by its own `set_fcn` iff it has links, is a
derivative, or is timed (the trigger); a triggered parameter becomes dynamic iff
its live-needs condition holds — it is a pop-aggregation or derivative, or some
dependency is a compartment or characteristic, or some dependency parameter with
a function is dynamic at read time (a triggered dependency carries its own
progset-aware value, so program overwrites propagate through chains of triggered
parameters; an untriggered dependency carries the progset-less recursive value,
because `set_dynamic` does not pass the progset down), or a direct dependency
parameter is program-overwritten — and is otherwise marked precompute. An
untriggered parameter with a function is marked (with the progset-less rule) only
if reached as a dependency, and a pop-aggregation parameter without the trigger
is never marked. Dynamic and precompute are mutually exclusive for every
parameter. -/
theorem parameter_dynamic_selection_rule (w : ℕ → ParSpec) (hDown : Downward w)
    (hp : Bool) (n i : ℕ) (hin : i < n) (hfcn : (w i).hasFcn = true) :
    (trigger w i = true →
      ((build_pass w hp n initDynState).dyn i = needsL w hp i ∧
       (build_pass w hp n initDynState).pre i = !(needsL w hp i))) ∧
    (trigger w i = false →
      (((build_pass w hp n initDynState).dyn i = needsL w hp i ∧
        (build_pass w hp n initDynState).pre i = !(needsL w hp i)) ∨
       ((build_pass w hp n initDynState).dyn i = false ∧
        (build_pass w hp n initDynState).pre i = false))) ∧
    (∀ k : ℕ, ¬((build_pass w hp n initDynState).dyn k = true ∧
      (build_pass w hp n initDynState).pre k = true)) := by
  have hinv := build_pass_invariant w hDown hp n
  have hmcl := hinv.1 i hin
  refine ⟨fun htr => hmcl.1 ⟨hfcn, htr⟩, fun htr => hmcl.2.1 ⟨hfcn, htr⟩, ?_⟩
  intro k
  rintro ⟨hd, hpre⟩
  by_cases hk : k < n
  · have hm := hinv.1 k hk
    by_cases hfk : (w k).hasFcn = true
    · by_cases htk : trigger w k = true
      · obtain ⟨h1, h2⟩ := hm.1 ⟨hfk, htk⟩
        rw [h1] at hd
        rw [h2, hd] at hpre
        simp at hpre
      · have htk2 : trigger w k = false := by
          cases hh : trigger w k with
          | false => rfl
          | true => exact absurd hh htk
        rcases hm.2.1 ⟨hfk, htk2⟩ with ⟨h1, h2⟩ | ⟨h1, _⟩
        · rw [h1] at hd
          rw [h2, hd] at hpre
          simp at hpre
        · rw [h1] at hd
          exact Bool.false_ne_true hd
    · have hfk2 : (w k).hasFcn = false := by
        cases hh : (w k).hasFcn with
        | false => rfl
        | true => exact absurd hh hfk
      obtain ⟨h1, _⟩ := hm.2.2 hfk2
      rw [h1] at hd
      exact Bool.false_ne_true hd
  · have hun := hinv.2 k (by omega)
    rw [hun.1] at hd
    exact Bool.false_ne_true hd

/-- A pop-aggregation parameter with a function and no links, not a derivative,
not timed, not overwritten; `set_fcn` records no dependency objects for
aggregations, so `deps` is empty. -/
def wPopAgg : ℕ → ParSpec := fun _ =>
  ⟨true, true, false, false, false, false, []⟩

/-- Counterexample for claim C6 as stated: a pop-aggregation parameter with a
function but no links is neither marked dynamic nor marked precompute by
`set_fcn`, because the `set_dynamic` trigger (links, derivative, or timed) never
fires; the claim asserts a pop-aggregation always becomes dynamic. -/
theorem popagg_without_links_not_dynamic :
    (wPopAgg 0).hasFcn = true ∧ (wPopAgg 0).popAgg = true ∧
    (wPopAgg 0).links = false ∧ (wPopAgg 0).derivative = false ∧
    (wPopAgg 0).timed = false ∧
    (set_fcn wPopAgg true 5 0 initDynState).dyn 0 = false ∧
    (set_fcn wPopAgg true 5 0 initDynState).pre 0 = false :=
  ⟨rfl, rfl, rfl, rfl, rfl, rfl, rfl⟩

/-- A three-parameter world realizing the threaded overwrite propagation:
parameter 0 is program-overwritten data with no function; parameter 1 (function,
links) depends directly on parameter 0; parameter 2 (function, links) depends
directly on parameter 1 only. -/
def wThreaded : ℕ → ParSpec := fun i =>
  if i = 1 then ⟨true, false, false, false, true, false, [Dep.par 0]⟩
  else if i = 2 then ⟨true, false, false, false, true, false, [Dep.par 1]⟩
  else ⟨false, false, false, false, false, true, []⟩

theorem wThreaded_downward : Downward wThreaded := by
  intro i j hmem
  unfold wThreaded at hmem
  by_cases h1 : i = 1
  · rw [if_pos h1] at hmem
    subst h1
    rw [List.mem_singleton] at hmem
    injection hmem with hj
    omega
  · rw [if_neg h1] at hmem
    by_cases h2 : i = 2
    · rw [if_pos h2] at hmem
      subst h2
      rw [List.mem_singleton] at hmem
      injection hmem with hj
      omega
    · rw [if_neg h2] at hmem
      exact absurd hmem (List.not_mem_nil _)

/-- Witness for the amended C6 in the threaded scenario with programs active:
parameter 1 is dynamic because its own top-level frame sees the program
overwrite of its direct dependency 0, and parameter 2 — whose only dependency is
parameter 1 — reads the live dynamic flag of parameter 1 and becomes dynamic as
well, with precompute off. -/
theorem parameter_dynamic_selection_rule_witness :
    trigger wThreaded 2 = true ∧ needsL wThreaded true 2 = true ∧
    (build_pass wThreaded true 3 initDynState).dyn 2 = needsL wThreaded true 2 ∧
    (build_pass wThreaded true 3 initDynState).pre 2 = !(needsL wThreaded true 2) := by
  have h := (parameter_dynamic_selection_rule wThreaded wThreaded_downward true 3 2
    (by norm_num) rfl).1 rfl
  exact ⟨rfl, by decide, h.1, h.2⟩

/-! ## Junction processing (model.py lines 1472, 2210-2222, 435-491)

The comment on `Population.junctions` (line 1472) documents a list of all
junctions in execution order, ordered so that `junction[k]` never drains into
`junction[i<k]`. In the source, `Population.__init__` assigns this list to `[]`
and no statement anywhere appends to it (no topological sort is computed;
`networkx` is imported but unused). `Model.update_junctions` iterates
`self.junctions` on the `Model` object (an attribute the `Model` never assigns
at all) and calls `j.balance()` without the required `ti` argument; and
`JunctionCompartment.balance` itself calls `np.zeros(self._cache_duration+1,1)`,
passing `1` where a dtype is expected. The embedding below captures the
execution-order list the build actually produces and the resulting
`update_junctions` loop over it. -/

/-- Translation of the junction execution-order list produced by the build: it is
assigned `[]` in `Population.__init__` and never extended, whatever junction
compartments (given here by their indices) the population contains. -/
def Population.buildJunctions (junctionComps : List ℕ) : List ℕ := []

/-- Translation of the `update_junctions` loop: fold the balance operation over
the junction execution-order list. -/
def Model.update_junctions (St : Type) (order : List ℕ) (balanceFn : ℕ → St → St)
    (st : St) : St :=
  order.foldl (fun s j => balanceFn j s) st

/-! ## Theorems for claim C3 -/

/-- Claim C3 evaluation: the junction execution-order list built by the source is
empty even when the population contains junction compartments, so the
`update_junctions` loop balances no junction and leaves every link and
compartment value unchanged — contradicting the claimed invariant that after
`update_junctions` every junction holds 0 with outflow equal to inflow, processed
in a topological order precomputed at build time. -/
theorem update_junctions_processes_no_junction (St : Type) (balanceFn : ℕ → St → St)
    (st : St) (junctionComps : List ℕ) :
    Population.buildJunctions junctionComps = [] ∧
    Model.update_junctions St (Population.buildJunctions junctionComps) balanceFn st
      = st ∧
    (∀ j ∈ junctionComps, j ∉ Population.buildJunctions junctionComps) := by
  refine ⟨rfl, rfl, ?_⟩
  intro j _
  exact List.not_mem_nil j

/-! ## Model.process and the junction attribute (model.py lines 1821-2102, 2210-2222)

`Model.process` runs the initial-tick pre-sequence — `update_pars`,
`update_junctions(initial_flush=True)`, `update_pars`, `update_links`,
`update_junctions` — and then the main loop, which per tick runs `update_comps`,
`update_pars`, `update_links`, `update_junctions`. Every `update_junctions` call
reads `self.junctions` on the `Model` object (line 2221); neither
`Model.__init__` (lines 1834-1849) nor `Model.build` (lines 1959-2065) ever
assigns that attribute, so the read raises `AttributeError`. The embedding below
keeps the comps/pars/links phase composition for one plain compartment driven by
one transition parameter, models the attribute dictionary relevant to
`update_junctions`, and threads the attribute read through `Except`. -/

/-- Build inputs determining one integration run. -/
structure ProcInputs where
  units : Units
  dt : ℚ
  timescale : ℚ
  parVals : ℕ → ℚ
  inflow : ℕ → ℚ
  v0 : ℚ

/-- Integration state: current tick, compartment value and resolved link outflow
at that tick. -/
structure ProcState where
  t_index : ℕ
  compVal : ℚ
  linkOut : ℚ
deriving DecidableEq

/-- The `Model` attribute read by `update_junctions`: `junctions` records whether
`self.junctions` was ever assigned, and with what list. -/
structure ModelAttrs where
  junctions : Option (List ℕ)

/-- Translation of the attribute state after `Model.__init__` and `Model.build`:
neither method assigns `self.junctions` (and `Population.junctions`, the list the
comment on line 1472 describes, is itself never populated), so the attribute is
absent. -/
def Model.buildAttrs : ModelAttrs := ⟨none⟩

/-- The error raised by reading the missing attribute in `update_junctions`. -/
def attributeErrorMsg : String :=
  "AttributeError: Model object has no attribute junctions"

/-- The first three phases of one main-loop iteration of `Model.process`:
`update_comps` (roll the compartment forward by the stored flows), `update_pars`,
and `update_links` (convert the parameter value to a cached fraction and resolve
it to an outflow against the new compartment size). The fourth phase,
`update_junctions`, is applied by `Model.loopIter`. -/
def Model.tick (inp : ProcInputs) (s : ProcState) : ProcState :=
  let newVal := Compartment.update s.compVal [s.linkOut] [inp.inflow s.t_index]
  let cache := (update_link_cache inp.units (inp.parVals (s.t_index + 1)) inp.dt
    inp.timescale false newVal).getD 0
  let out := Compartment.resolve_outflows [cache] newVal
  ⟨s.t_index + 1, newVal, out.headI⟩

/-- The `update_pars` and `update_links` part of the initial-tick pre-sequence:
the compartment holds the initialization value and the tick-0 link flows are
computed from the tick-0 parameter value. The pre-sequence also calls
`update_junctions` twice (lines 2079 and 2082); those reads are performed by
`Model.process` below. -/
def Model.initState (inp : ProcInputs) : ProcState :=
  let cache := (update_link_cache inp.units (inp.parVals 0) inp.dt
    inp.timescale false inp.v0).getD 0
  ⟨0, inp.v0, (Compartment.resolve_outflows [cache] inp.v0).headI⟩

/-- Translation of one full main-loop iteration: the comps/pars/links phases
(`Model.tick`), then `update_junctions`, which reads `self.junctions` and raises
`AttributeError` when the attribute is missing; when present, balancing folds
over the junction order (and leaves this single-plain-compartment state
unchanged, there being no junction compartment in the chain). -/
def Model.loopIter (inp : ProcInputs) (attrs : ModelAttrs) (s : ProcState) :
    Except String ProcState :=
  match attrs.junctions with
  | none => Except.error attributeErrorMsg
  | some order => Except.ok (order.foldl (fun s2 _ => s2) (Model.tick inp s))

/-- Translation of `Model.process`: the initial-tick pre-sequence — whose first
`update_junctions(initial_flush=True)` call at line 2079 already reads
`self.junctions` — followed by `n` iterations of the main loop. -/
def Model.process (inp : ProcInputs) (attrs : ModelAttrs) :
    ℕ → Except String ProcState
  | 0 =>
    match attrs.junctions with
    | none => Except.error attributeErrorMsg
    | some _ => Except.ok (Model.initState inp)
  | n + 1 => do
    let s ← Model.process inp attrs n
    Model.loopIter inp attrs s

/-! ## Theorems for claim C9 -/

/-- Claim C9 evaluation: with the attribute state the source actually builds
(`self.junctions` never assigned), `Model.process` raises `AttributeError` at its
first `update_junctions` call, for every build input and every tick count, so no
run ever completes and no Result arrays are produced — whereas the claim says two
runs from the same inputs yield identical Result arrays. The loop body itself is
a pure function of the build inputs, so determinism is the evident intent; the
missing attribute is the slip. -/
theorem process_raises_attribute_error (inp : ProcInputs) (n : ℕ) :
    Model.buildAttrs.junctions = none ∧
    Model.process inp Model.buildAttrs n = Except.error attributeErrorMsg := by
  refine ⟨rfl, ?_⟩
  induction n with
  | zero => rfl
  | succ n ih =>
    show (Model.process inp Model.buildAttrs n >>=
      fun s => Model.loopIter inp Model.buildAttrs s) = _
    rw [ih]
    rfl

end Atomica
